import Mathlib

/-!
# tool64: ROM layout detection and byte-order conversion

A shallow embedding of `tool64.c` (format detection from the four magic bytes of
the cartridge header, the two swap primitives, `load_rom`, the conversion
routine and `clockrate`), with theorems about it.

Conventions of the embedding.

* A `uint8_t` is a `Byte` (`Fin 256`); a buffer `uint8_t *buf` is the list of the
  bytes of the object `buf` points to.  The `int len` parameter is passed
  separately, as in the source; it is a natural number here (a negative `len`
  runs no iteration, exactly like `0`), and buffers are taken to be shorter than
  `INT_MAX`, so that `i += 2` and `i += 4` do not overflow.
* Reading or writing an index outside the object is undefined behaviour in C.
  Every operation that indexes a buffer returns an `Option`; `none` means that
  an index outside the buffer was accessed.
* `uint32_t` values are natural numbers below `2 ^ 32`.
-/

namespace Tool64

/-- A `uint8_t`. -/
abbrev Byte := Fin 256

/-- `#define N64 0x40123780 // little endian` -/
def N64 : Nat := 0x40123780

/-- `#define Z64 0x80371240 // big endian` -/
def Z64 : Nat := 0x80371240

/-- `#define V64 0x37804012 // byteswaped.` -/
def V64 : Nat := 0x37804012

/-- `EXIT_SUCCESS` of `<stdlib.h>`. -/
def EXIT_SUCCESS : Nat := 0

/-- `EXIT_FAILURE` of `<stdlib.h>`. -/
def EXIT_FAILURE : Nat := 1

/-- The record `rom_header_t`, as the bytes of its object representation.  The
fields have no padding between them: `lat`, `pgs1`, `pwd`, `pgs2` are the bytes
at offsets 0, 1, 2, 3, `clock_rate` starts at offset 4, and `version` is the
byte at offset 63. -/
abbrev rom_header_t := List Byte

/-- `sizeof(rom_header_t)`: 4 + 5 * 4 + 8 + 20 + 2 * 4 + 2 + 1 + 1. -/
def sizeof_rom_header_t : Nat := 64

/-- Field `lat` (offset 0). -/
def lat (h : rom_header_t) : Byte := h.getD 0 0

/-- Field `pgs1` (offset 1). -/
def pgs1 (h : rom_header_t) : Byte := h.getD 1 0

/-- Field `pwd` (offset 2). -/
def pwd (h : rom_header_t) : Byte := h.getD 2 0

/-- Field `pgs2` (offset 3). -/
def pgs2 (h : rom_header_t) : Byte := h.getD 3 0

/-- The function `format`:
```
f  = (h->lat  & 0xFF) << 24;
f |= (h->pgs1 & 0xFF) << 16;
f |= (h->pwd  & 0xFF) << 8;
f |= (h->pgs2 & 0xFF);
```
The shifts are computed on `int` and stored in the `uint32_t f`, hence the
reduction modulo `2 ^ 32`. -/
def format (h : rom_header_t) : Nat :=
  let f := (((lat h).val &&& 0xFF) <<< 24) % 2 ^ 32
  let f := (f ||| (((pgs1 h).val &&& 0xFF) <<< 16)) % 2 ^ 32
  let f := (f ||| (((pwd h).val &&& 0xFF) <<< 8)) % 2 ^ 32
  let f := (f ||| ((pgs2 h).val &&& 0xFF)) % 2 ^ 32
  f

/-- The text that `printf("%x", n)` produces. -/
def hex (n : Nat) : String := String.mk (Nat.toDigits 16 n)

/-- The function `format_str`: the first component is what it prints (only the
`default` case prints), the second is the string it returns. -/
def format_str (fmt : Nat) : List String × String :=
  if fmt = N64 then ([], "Little Endian")
  else if fmt = V64 then ([], "Byte Swapped")
  else if fmt = Z64 then ([], "Big Endian")
  else if fmt = 0 then ([], "NULL")
  else (["problemi " ++ hex fmt ++ "\n"], "Unknown")

/-- The function `swap`:
```
char x = buf[a];
buf[a] = buf[b];
buf[b] = x;
```
The round trip of a byte through `char` does not change it.  The result is
`none` when `a` or `b` is not an index of the buffer. -/
def swap (buf : List Byte) (a b : Nat) : Option (List Byte) :=
  match buf[a]?, buf[b]? with
  | some x, some y => some ((buf.set a y).set b x)
  | _, _ => none

/-- The loop of `wordswap`, from the loop variable `i` on:
`for (...; i < len; i += 2) swap(buf, i, i+1);`.
The first argument after `len` bounds the number of iterations still allowed;
`wordswapLoop_fuel` shows that `len` of them are always enough. -/
def wordswapLoop (len : Nat) : Nat → Nat → List Byte → Option (List Byte)
  | 0, i, buf => if i < len then none else some buf
  | fuel + 1, i, buf =>
    if i < len then
      match swap buf i (i + 1) with
      | some buf1 => wordswapLoop len fuel (i + 2) buf1
      | none => none
    else some buf

/-- The function `wordswap` (`// ABCD -> BADC`). -/
def wordswap (buf : List Byte) (len : Nat) : Option (List Byte) :=
  wordswapLoop len len 0 buf

/-- The loop of `dwordswap`, from the loop variable `i` on:
`for (...; i < len; i += 4) { swap(buf, i, i+3); swap(buf, i+1, i+2); }`. -/
def dwordswapLoop (len : Nat) : Nat → Nat → List Byte → Option (List Byte)
  | 0, i, buf => if i < len then none else some buf
  | fuel + 1, i, buf =>
    if i < len then
      match swap buf i (i + 3) with
      | some buf1 =>
        match swap buf1 (i + 1) (i + 2) with
        | some buf2 => dwordswapLoop len fuel (i + 4) buf2
        | none => none
      | none => none
    else some buf

/-- The function `dwordswap` (`// ABCD -> DCBA`). -/
def dwordswap (buf : List Byte) (len : Nat) : Option (List Byte) :=
  dwordswapLoop len len 0 buf

/-- The function `header`: `malloc(sizeof(rom_header_t))`, one `fread` of one
record from the start of the file, `rewind`.  A file shorter than the record
leaves the value of the record indeterminate; the model gives no result then. -/
def header (f : List Byte) : Option rom_header_t :=
  if sizeof_rom_header_t ≤ f.length then some (f.take sizeof_rom_header_t) else none

/-- The record `rom_t`: `f` is the content of the open file, `h` the header in
memory, `fmt` the recorded format. -/
structure rom_t where
  f : List Byte
  h : rom_header_t
  fmt : Nat
deriving DecidableEq

/-- The function `load_rom`.  The argument is the content of the file at `path`,
`none` when `fopen` fails.  The result is the returned `int` and the `rom_t`
written through the pointer (`none` when 1 is returned: `*rom` is left as it
was, uninitialised in the callers); the outer `none` stands for undefined
behaviour. -/
def load_rom (path : Option (List Byte)) : Option (Nat × Option rom_t) :=
  match path with
  | none => some (1, none)
  | some f =>
    match header f with
    | none => none
    | some h =>
      let fmt := format h
      match (if fmt = N64 then dwordswap h sizeof_rom_header_t else some h) with
      | none => none
      | some h1 =>
        match (if fmt = V64 then wordswap h1 sizeof_rom_header_t else some h1) with
        | none => none
        | some h2 => some (0, some { f := f, h := h2, fmt := fmt })

/-- The swaps of `convert` on the image (`// convert to big endian.` and
`// then convert to final format`):
```
if (rom.fmt == N64) dwordswap(data, romsize);
if (rom.fmt == V64) wordswap(data, romsize);
if (dst_format == V64) wordswap(data, romsize);
if (dst_format == N64) dwordswap(data, romsize);
```
`dst_format` is an `int` in the source; it stands here for its 32-bit pattern,
which is what the comparisons with `rom.fmt` and with the constants compare. -/
def convert_swaps (fmt dst_format : Nat) (data : List Byte) (romsize : Nat) :
    Option (List Byte) :=
  match (if fmt = N64 then dwordswap data romsize else some data) with
  | none => none
  | some d1 =>
    match (if fmt = V64 then wordswap d1 romsize else some d1) with
    | none => none
    | some d2 =>
      match (if dst_format = V64 then wordswap d2 romsize else some d2) with
      | none => none
      | some d3 => if dst_format = N64 then dwordswap d3 romsize else some d3

/-- What the C library answers during one call of `convert`. -/
structure Sys where
  /-- The content of the file `argv[2]`; `none` when it cannot be opened. -/
  file : Option (List Byte)
  /-- Whether `malloc` returns a block. -/
  malloc_ok : Bool
  /-- Whether `fread` delivers all `romsize` bytes. -/
  fread_ok : Bool
  /-- Whether `myfile.bin` can be opened for writing. -/
  fopen_out_ok : Bool

/-- What a call of `convert` leaves behind: the returned status, the lines
printed, and the content written to `myfile.bin` when something is written. -/
structure Outcome where
  status : Nat
  out : List String
  written : Option (List Byte)
deriving DecidableEq

/-- The function `convert`, with `argc` and the target `dst_format` (its 32-bit
pattern, as in `convert_swaps`); `none` stands for undefined behaviour (the use
of an uninitialised `rom`, an index outside the image, or `fwrite` on a null
stream).  `memset(data, 0, sizeof(data))`
clears the first bytes of the block, as many as a pointer has; the image has at
least the 64 bytes of the header at that point, and `fread` overwrites them.
The two calls of `format_str` in the arguments of one `printf` print in the
order in which they are written. -/
def convert (sys : Sys) (argc : Nat) (dst_format : Nat) : Option Outcome :=
  if argc < 3 then
    some ⟨EXIT_FAILURE, ["Error: Not enough arguments for conversion\n"], none⟩
  else
    match load_rom sys.file with
    | none => none
    | some (ret, loaded) =>
      if ret ≠ 0 then some ⟨EXIT_FAILURE, ["Error: Failed to load ROM\n"], none⟩
      else
        match loaded with
        | none => none
        | some rom =>
          if rom.fmt = dst_format then
            some ⟨EXIT_SUCCESS,
              (format_str rom.fmt).1 ++
                ["Input is already " ++ (format_str rom.fmt).2 ++ ". Nothing to do!\n"],
              none⟩
          else
            let out := (format_str rom.fmt).1 ++ (format_str dst_format).1 ++
              ["Converting " ++ (format_str rom.fmt).2 ++ " to " ++
                (format_str dst_format).2 ++ "\n"]
            let romsize := rom.f.length
            if !sys.malloc_ok then
              some ⟨EXIT_FAILURE, out ++ ["Error: Failed to retrieve memory\n"], none⟩
            else if !sys.fread_ok then
              some ⟨EXIT_FAILURE, out ++ ["Error: Unexpected file length\n"], none⟩
            else
              match convert_swaps rom.fmt dst_format rom.f romsize with
              | none => none
              | some data =>
                if sys.fopen_out_ok then some ⟨EXIT_SUCCESS, out, some data⟩ else none

/-! ## Index maps and sample images used in the statements -/

/-- The index from which `wordswap` takes the byte it leaves at index `j`. -/
def wsIdx (j : Nat) : Nat := if j % 2 = 0 then j + 1 else j - 1

/-- The index from which `dwordswap` takes the byte it leaves at index `j`. -/
def dwsIdx (j : Nat) : Nat := j - j % 4 + (3 - j % 4)

/-- The least even number that is at least `len`. -/
def up2 (len : Nat) : Nat := len + len % 2

/-- The least multiple of 4 that is at least `len`. -/
def up4 (len : Nat) : Nat := (len + 3) / 4 * 4

/-- The primitive that `convert` runs for a layout, on either side of the
big-endian intermediate: `dwordswap` for `N64`, `wordswap` for `V64`, nothing
for any other value. -/
def layoutSwap (x : Nat) (buf : List Byte) (len : Nat) : Option (List Byte) :=
  if x = N64 then dwordswap buf len else if x = V64 then wordswap buf len else some buf

/-- The index permutation of `layoutSwap`. -/
def layoutIdx (x : Nat) (j : Nat) : Nat :=
  if x = N64 then dwsIdx j else if x = V64 then wsIdx j else j

/-- The four bytes of a layout constant, most significant first: the pattern at
offset 0 of an image in that layout. -/
def magic (x : Nat) : List Byte :=
  [Fin.ofNat (x / 2 ^ 24), Fin.ofNat (x / 2 ^ 16), Fin.ofNat (x / 2 ^ 8), Fin.ofNat x]

/-- A header in the `Z64` layout: the magic `80 37 12 40`, then `AA BB CC DD` at
offset 4, then zeros up to 64 bytes. -/
def exampleZ64 : List Byte :=
  [0x80, 0x37, 0x12, 0x40, 0xAA, 0xBB, 0xCC, 0xDD] ++ List.replicate 56 0

/-- A 64-byte image of no known layout: `DE AD BE EF`, then zeros. -/
def exampleUnknown : List Byte :=
  [0xDE, 0xAD, 0xBE, 0xEF] ++ List.replicate 60 0

/-- A 65-byte image in the `Z64` layout. -/
def exampleOdd : List Byte := exampleZ64 ++ [0x01]

/-! ## The stages of `convert`, the access traces and `clockrate` -/

/-- The first two swaps of `convert` (`// convert to big endian.`):
```
if (rom.fmt == N64) dwordswap(data, romsize);
if (rom.fmt == V64) wordswap(data, romsize);
``` -/
def convert_to_big_endian (fmt : Nat) (data : List Byte) (romsize : Nat) :
    Option (List Byte) :=
  match (if fmt = N64 then dwordswap data romsize else some data) with
  | none => none
  | some d1 => if fmt = V64 then wordswap d1 romsize else some d1

/-- The last two swaps of `convert` (`// then convert to final format`):
```
if (dst_format == V64) wordswap(data, romsize);
if (dst_format == N64) dwordswap(data, romsize);
``` -/
def convert_to_final_format (dst_format : Nat) (data : List Byte) (romsize : Nat) :
    Option (List Byte) :=
  match (if dst_format = V64 then wordswap data romsize else some data) with
  | none => none
  | some d3 => if dst_format = N64 then dwordswap d3 romsize else some d3

/-- The indices that one call `swap(buf, a, b)` uses, in order: it reads
`buf[a]`, reads `buf[b]`, writes `buf[a]`, writes `buf[b]`. -/
def swapAccesses (a b : Nat) : List Nat := [a, b, a, b]

/-- The loop of `wordswap` once more, with what it does besides changing the
buffer: the second component lists the indices used by the calls of `swap`, in
order, and the third counts the iterations of the loop body.  A call of `swap`
that leaves the buffer ends the run, with its indices recorded. -/
def wordswapRun (len : Nat) : Nat → Nat → List Byte → Option (List Byte) × List Nat × Nat
  | 0, i, buf => (if i < len then none else some buf, [], 0)
  | fuel + 1, i, buf =>
    if i < len then
      match swap buf i (i + 1) with
      | some buf1 =>
        let rest := wordswapRun len fuel (i + 2) buf1
        (rest.1, swapAccesses i (i + 1) ++ rest.2.1, rest.2.2 + 1)
      | none => (none, swapAccesses i (i + 1), 1)
    else (some buf, [], 0)

/-- The loop of `dwordswap` once more, with the indices used and the number of
iterations, as in `wordswapRun`. -/
def dwordswapRun (len : Nat) : Nat → Nat → List Byte → Option (List Byte) × List Nat × Nat
  | 0, i, buf => (if i < len then none else some buf, [], 0)
  | fuel + 1, i, buf =>
    if i < len then
      match swap buf i (i + 3) with
      | some buf1 =>
        match swap buf1 (i + 1) (i + 2) with
        | some buf2 =>
          let rest := dwordswapRun len fuel (i + 4) buf2
          (rest.1, swapAccesses i (i + 3) ++ swapAccesses (i + 1) (i + 2) ++ rest.2.1,
            rest.2.2 + 1)
        | none => (none, swapAccesses i (i + 3) ++ swapAccesses (i + 1) (i + 2), 1)
      | none => (none, swapAccesses i (i + 3), 1)
    else (some buf, [], 0)

/-- Field `clock_rate` (offsets 4 to 7), a `uint32_t` read in the byte order of
the host. -/
def clock_rate (host_big_endian : Bool) (h : rom_header_t) : Nat :=
  if host_big_endian then
    (h.getD 4 0).val * 2 ^ 24 + (h.getD 5 0).val * 2 ^ 16 + (h.getD 6 0).val * 2 ^ 8
      + (h.getD 7 0).val
  else
    (h.getD 7 0).val * 2 ^ 24 + (h.getD 6 0).val * 2 ^ 16 + (h.getD 5 0).val * 2 ^ 8
      + (h.getD 4 0).val

/-- The arithmetic of `clockrate` on the value `x` of `h->clock_rate`:
```
cr =  ((x      ) & 0xFF) >> 24;
cr |= ((x << 8 ) & 0xFF) >> 16;
cr |= ((x << 16) & 0xFF) >> 8;
cr |= ((x << 24) & 0xFF);
```
All operations are on `uint32_t`: a left shift is reduced modulo `2 ^ 32`. -/
def clockrate_of (x : Nat) : Nat :=
  let cr := (x &&& 0xFF) >>> 24
  let cr := cr ||| ((((x <<< 8) % 2 ^ 32) &&& 0xFF) >>> 16)
  let cr := cr ||| ((((x <<< 16) % 2 ^ 32) &&& 0xFF) >>> 8)
  let cr := cr ||| (((x <<< 24) % 2 ^ 32) &&& 0xFF)
  cr

/-- The function `clockrate`. -/
def clockrate (host_big_endian : Bool) (h : rom_header_t) : Nat :=
  clockrate_of (clock_rate host_big_endian h)

/-- The value of a `uint32_t` with its four bytes in reverse order. -/
def byteReverse32 (x : Nat) : Nat :=
  (x % 2 ^ 8) * 2 ^ 24 + (x / 2 ^ 8 % 2 ^ 8) * 2 ^ 16 + (x / 2 ^ 16 % 2 ^ 8) * 2 ^ 8
    + x / 2 ^ 24 % 2 ^ 8

/-- Following the words of the specification: the single composed transform
for a pair of layouts, applied once.  It is the identity when source and target
are equal, `wordswap` between `Z64` and `V64`, `dwordswap` between `Z64` and
`N64`, and `wordswap` followed by `dwordswap` between `V64` and `N64`. -/
def composedTransform (source target : Nat) (buf : List Byte) (len : Nat) :
    Option (List Byte) :=
  if source = target then some buf
  else if (source = Z64 ∧ target = V64) ∨ (source = V64 ∧ target = Z64) then
    wordswap buf len
  else if (source = Z64 ∧ target = N64) ∨ (source = N64 ∧ target = Z64) then
    dwordswap buf len
  else (wordswap buf len).bind fun b => dwordswap b len

/-- A 64-byte header in the `V64` layout: the magic `37 80 40 12`, then
`BB AA DD CC` at offset 4, then zeros. -/
def exampleV64 : List Byte :=
  [0x37, 0x80, 0x40, 0x12, 0xBB, 0xAA, 0xDD, 0xCC] ++ List.replicate 56 0

/-- A 64-byte header in the `N64` layout: the magic `40 12 37 80`, then
`DD CC BB AA` at offset 4, then zeros. -/
def exampleN64 : List Byte :=
  [0x40, 0x12, 0x37, 0x80, 0xDD, 0xCC, 0xBB, 0xAA] ++ List.replicate 56 0

/-! ## The calls of the swap primitives made by `load_rom` and `convert` -/

/-- The object a swap primitive is called on: the header record that `load_rom`
keeps in memory, or the image that `convert` reads into `data`. -/
inductive Target where
  | header
  | image
deriving DecidableEq

/-- One call of a swap primitive: which one, on which object, with which
length. -/
inductive Call where
  | wordswap (target : Target) (len : Nat)
  | dwordswap (target : Target) (len : Nat)
deriving DecidableEq

/-- The function `load_rom` once more, with the calls of the swap primitives it
makes, in order.  The first component is the result of `load_rom`. -/
def load_romRun (path : Option (List Byte)) : Option (Nat × Option rom_t) × List Call :=
  match path with
  | none => (some (1, none), [])
  | some f =>
    match header f with
    | none => (none, [])
    | some h =>
      let fmt := format h
      let calls1 := if fmt = N64 then [Call.dwordswap Target.header sizeof_rom_header_t] else []
      match (if fmt = N64 then dwordswap h sizeof_rom_header_t else some h) with
      | none => (none, calls1)
      | some h1 =>
        let calls2 :=
          calls1 ++ if fmt = V64 then [Call.wordswap Target.header sizeof_rom_header_t] else []
        match (if fmt = V64 then wordswap h1 sizeof_rom_header_t else some h1) with
        | none => (none, calls2)
        | some h2 => (some (0, some { f := f, h := h2, fmt := fmt }), calls2)

/-- The swaps of `convert` on the image once more, with the calls made, in
order.  The first component is the result of `convert_swaps`. -/
def convert_swapsRun (fmt dst_format : Nat) (data : List Byte) (romsize : Nat) :
    Option (List Byte) × List Call :=
  let calls1 := if fmt = N64 then [Call.dwordswap Target.image romsize] else []
  match (if fmt = N64 then dwordswap data romsize else some data) with
  | none => (none, calls1)
  | some d1 =>
    let calls2 := calls1 ++ if fmt = V64 then [Call.wordswap Target.image romsize] else []
    match (if fmt = V64 then wordswap d1 romsize else some d1) with
    | none => (none, calls2)
    | some d2 =>
      let calls3 :=
        calls2 ++ if dst_format = V64 then [Call.wordswap Target.image romsize] else []
      match (if dst_format = V64 then wordswap d2 romsize else some d2) with
      | none => (none, calls3)
      | some d3 =>
        (if dst_format = N64 then dwordswap d3 romsize else some d3,
          calls3 ++ if dst_format = N64 then [Call.dwordswap Target.image romsize] else [])

/-- The function `convert` once more, with the calls of the swap primitives made
from its entry to its return, those of `load_rom` included, in order.  The
first component is the result of `convert`. -/
def convertRun (sys : Sys) (argc : Nat) (dst_format : Nat) : Option Outcome × List Call :=
  if argc < 3 then
    (some ⟨EXIT_FAILURE, ["Error: Not enough arguments for conversion\n"], none⟩, [])
  else
    match load_romRun sys.file with
    | (none, calls) => (none, calls)
    | (some (ret, loaded), calls) =>
      if ret ≠ 0 then (some ⟨EXIT_FAILURE, ["Error: Failed to load ROM\n"], none⟩, calls)
      else
        match loaded with
        | none => (none, calls)
        | some rom =>
          if rom.fmt = dst_format then
            (some ⟨EXIT_SUCCESS,
              (format_str rom.fmt).1 ++
                ["Input is already " ++ (format_str rom.fmt).2 ++ ". Nothing to do!\n"],
              none⟩, calls)
          else
            let out := (format_str rom.fmt).1 ++ (format_str dst_format).1 ++
              ["Converting " ++ (format_str rom.fmt).2 ++ " to " ++
                (format_str dst_format).2 ++ "\n"]
            let romsize := rom.f.length
            if !sys.malloc_ok then
              (some ⟨EXIT_FAILURE, out ++ ["Error: Failed to retrieve memory\n"], none⟩, calls)
            else if !sys.fread_ok then
              (some ⟨EXIT_FAILURE, out ++ ["Error: Unexpected file length\n"], none⟩, calls)
            else
              match convert_swapsRun rom.fmt dst_format rom.f romsize with
              | (none, calls1) => (none, calls ++ calls1)
              | (some data, calls1) =>
                (if sys.fopen_out_ok then some ⟨EXIT_SUCCESS, out, some data⟩ else none,
                  calls ++ calls1)

/-! ## The swap primitives -/

theorem swap_some (buf : List Byte) (a b : Nat) (ha : a < buf.length) (hb : b < buf.length) :
    ∃ r, swap buf a b = some r ∧ r.length = buf.length ∧
      ∀ j, r[j]? = if j = b then buf[a]? else if j = a then buf[b]? else buf[j]? := by
  refine ⟨(buf.set a buf[b]).set b buf[a], ?_, by simp, ?_⟩
  · simp [swap, List.getElem?_eq_getElem ha, List.getElem?_eq_getElem hb]
  · intro j
    by_cases h1 : j = b
    · subst h1
      simp [List.getElem?_eq_getElem ha, hb]
    · by_cases h2 : j = a
      · subst h2
        simp [h1, List.getElem?_set, List.getElem?_eq_getElem hb, ha, Ne.symm h1]
      · simp [h1, h2, List.getElem?_set, Ne.symm h1, Ne.symm h2]

theorem swap_eq_none {buf : List Byte} {a b : Nat} :
    swap buf a b = none ↔ buf.length ≤ a ∨ buf.length ≤ b := by
  constructor
  · intro h
    by_contra hc
    push_neg at hc
    obtain ⟨r, hr, _⟩ := swap_some buf a b hc.1 hc.2
    rw [hr] at h
    exact absurd h (by simp)
  · rintro (h | h)
    · simp [swap, List.getElem?_eq_none h]
    · simp only [swap, List.getElem?_eq_none h]
      cases buf[a]? <;> rfl

theorem wordswapLoop_spec (len : Nat) : ∀ (fuel i : Nat) (buf : List Byte),
    i % 2 = 0 → up2 len ≤ buf.length → len ≤ i + 2 * fuel →
    ∃ r, wordswapLoop len fuel i buf = some r ∧ r.length = buf.length ∧
      ∀ j, r[j]? = if i ≤ j ∧ j < up2 len then buf[wsIdx j]? else buf[j]? := by
  intro fuel
  induction fuel with
  | zero =>
    intro i buf hi hlen hf
    refine ⟨buf, ?_, rfl, ?_⟩
    · have : ¬ i < len := by omega
      simp [wordswapLoop, this]
    · intro j
      have : ¬ (i ≤ j ∧ j < up2 len) := by unfold up2; omega
      simp [this]
  | succ fuel ih =>
    intro i buf hi hlen hf
    by_cases h : i < len
    · have hb : i + 1 < buf.length := by unfold up2 at hlen; omega
      obtain ⟨b1, e1, l1, p1⟩ := swap_some buf i (i + 1) (by omega) hb
      obtain ⟨r, er, lr, pr⟩ := ih (i + 2) b1 (by omega) (by omega) (by omega)
      refine ⟨r, ?_, by omega, ?_⟩
      · simp [wordswapLoop, h, e1, er]
      · intro j
        rw [pr j]
        simp only [p1]
        unfold wsIdx up2
        by_cases c1 : j < i
        · have : ¬ (i + 2 ≤ j ∧ j < len + len % 2) := by omega
          have : ¬ (i ≤ j ∧ j < len + len % 2) := by omega
          have : j ≠ i + 1 := by omega
          have : j ≠ i := by omega
          simp [*]
        · by_cases c2 : j = i
          · subst c2
            have : ¬ (j + 2 ≤ j ∧ j < len + len % 2) := by omega
            have : (j ≤ j ∧ j < len + len % 2) := by omega
            simp [*]
          · by_cases c3 : j = i + 1
            · subst c3
              have : ¬ (i + 2 ≤ i + 1 ∧ i + 1 < len + len % 2) := by omega
              have : (i ≤ i + 1 ∧ i + 1 < len + len % 2) := by omega
              have : ¬ (i + 1) % 2 = 0 := by omega
              simp [*]
            · by_cases c4 : j < len + len % 2
              · have : (i + 2 ≤ j ∧ j < len + len % 2) := by omega
                have : (i ≤ j ∧ j < len + len % 2) := by omega
                by_cases c5 : j % 2 = 0
                · have : j + 1 ≠ i + 1 := by omega
                  have : j + 1 ≠ i := by omega
                  simp [*]
                · have : j - 1 ≠ i + 1 := by omega
                  have : j - 1 ≠ i := by omega
                  simp [*]
              · have : ¬ (i + 2 ≤ j ∧ j < len + len % 2) := by omega
                have : ¬ (i ≤ j ∧ j < len + len % 2) := by omega
                simp [*]
    · refine ⟨buf, ?_, rfl, ?_⟩
      · simp [wordswapLoop, h]
      · intro j
        have : ¬ (i ≤ j ∧ j < up2 len) := by unfold up2; omega
        simp [this]

theorem dwordswapLoop_spec (len : Nat) : ∀ (fuel i : Nat) (buf : List Byte),
    i % 4 = 0 → up4 len ≤ buf.length → len ≤ i + 4 * fuel →
    ∃ r, dwordswapLoop len fuel i buf = some r ∧ r.length = buf.length ∧
      ∀ j, r[j]? = if i ≤ j ∧ j < up4 len then buf[dwsIdx j]? else buf[j]? := by
  intro fuel
  induction fuel with
  | zero =>
    intro i buf hi hlen hf
    refine ⟨buf, ?_, rfl, ?_⟩
    · have : ¬ i < len := by omega
      simp [dwordswapLoop, this]
    · intro j
      have : ¬ (i ≤ j ∧ j < up4 len) := by unfold up4; omega
      simp [this]
  | succ fuel ih =>
    intro i buf hi hlen hf
    by_cases h : i < len
    · have hb : i + 3 < buf.length := by unfold up4 at hlen; omega
      obtain ⟨b1, e1, l1, p1⟩ := swap_some buf i (i + 3) (by omega) hb
      obtain ⟨b2, e2, l2, p2⟩ :=
        swap_some b1 (i + 1) (i + 2) (by omega) (by omega)
      obtain ⟨r, er, lr, pr⟩ := ih (i + 4) b2 (by omega) (by omega) (by omega)
      refine ⟨r, ?_, by omega, ?_⟩
      · simp [dwordswapLoop, h, e1, e2, er]
      · intro j
        rw [pr j]
        simp only [p2, p1]
        unfold dwsIdx up4
        have hu : i + 4 ≤ (len + 3) / 4 * 4 := by omega
        by_cases c1 : j < i
        · have : ¬ (i + 4 ≤ j ∧ j < (len + 3) / 4 * 4) := by omega
          have : ¬ (i ≤ j ∧ j < (len + 3) / 4 * 4) := by omega
          have : j ≠ i + 1 := by omega
          have : j ≠ i + 2 := by omega
          have : j ≠ i + 3 := by omega
          have : j ≠ i := by omega
          simp [*]
        · by_cases c2 : j < i + 4
          · have : ¬ (i + 4 ≤ j ∧ j < (len + 3) / 4 * 4) := by omega
            have : (i ≤ j ∧ j < (len + 3) / 4 * 4) := by omega
            have hj : j = i ∨ j = i + 1 ∨ j = i + 2 ∨ j = i + 3 := by omega
            rcases hj with hj | hj | hj | hj
            · subst hj
              have e : j - j % 4 + (3 - j % 4) = j + 3 := by omega
              simp [*]
            · subst hj
              have e : i + 1 - (i + 1) % 4 + (3 - (i + 1) % 4) = i + 2 := by omega
              have : (i ≤ i + 1 ∧ i + 1 < (len + 3) / 4 * 4) := by omega
              simp [*]
            · subst hj
              have e : i + 2 - (i + 2) % 4 + (3 - (i + 2) % 4) = i + 1 := by omega
              have : (i ≤ i + 2 ∧ i + 2 < (len + 3) / 4 * 4) := by omega
              simp [*]
            · subst hj
              have e : i + 3 - (i + 3) % 4 + (3 - (i + 3) % 4) = i := by omega
              have : (i ≤ i + 3 ∧ i + 3 < (len + 3) / 4 * 4) := by omega
              simp [*]
          · by_cases c4 : j < (len + 3) / 4 * 4
            · have : (i + 4 ≤ j ∧ j < (len + 3) / 4 * 4) := by omega
              have : (i ≤ j ∧ j < (len + 3) / 4 * 4) := by omega
              have : j - j % 4 + (3 - j % 4) ≠ i + 1 := by omega
              have : j - j % 4 + (3 - j % 4) ≠ i + 2 := by omega
              have : j - j % 4 + (3 - j % 4) ≠ i + 3 := by omega
              have : j - j % 4 + (3 - j % 4) ≠ i := by omega
              simp [*]
            · have : ¬ (i + 4 ≤ j ∧ j < (len + 3) / 4 * 4) := by omega
              have : ¬ (i ≤ j ∧ j < (len + 3) / 4 * 4) := by omega
              have : j ≠ i + 1 := by omega
              have : j ≠ i + 2 := by omega
              have : j ≠ i + 3 := by omega
              have : j ≠ i := by omega
              simp [*]
    · refine ⟨buf, ?_, rfl, ?_⟩
      · simp [dwordswapLoop, h]
      · intro j
        have : ¬ (i ≤ j ∧ j < up4 len) := by unfold up4; omega
        simp [this]

theorem swap_length {buf r : List Byte} {a b : Nat} (h : swap buf a b = some r) :
    r.length = buf.length := by
  have ha : a < buf.length := by
    by_contra hc
    rw [swap_eq_none.2 (Or.inl (by omega))] at h
    exact absurd h (by simp)
  have hb : b < buf.length := by
    by_contra hc
    rw [swap_eq_none.2 (Or.inr (by omega))] at h
    exact absurd h (by simp)
  obtain ⟨r1, e1, l1, _⟩ := swap_some buf a b ha hb
  rw [e1] at h
  cases h
  exact l1

theorem wordswapLoop_fuel (len : Nat) : ∀ (f1 f2 i : Nat) (buf : List Byte),
    len ≤ i + 2 * f1 → len ≤ i + 2 * f2 →
    wordswapLoop len f1 i buf = wordswapLoop len f2 i buf := by
  intro f1
  induction f1 with
  | zero =>
    intro f2 i buf h1 h2
    have : ¬ i < len := by omega
    cases f2 <;> simp [wordswapLoop, this]
  | succ f1 ih =>
    intro f2 i buf h1 h2
    by_cases h : i < len
    · cases f2 with
      | zero => omega
      | succ f2 =>
        simp only [wordswapLoop, h, if_true]
        cases swap buf i (i + 1) with
        | none => rfl
        | some b1 => exact ih f2 (i + 2) b1 (by omega) (by omega)
    · cases f2 <;> simp [wordswapLoop, h]

theorem dwordswapLoop_fuel (len : Nat) : ∀ (f1 f2 i : Nat) (buf : List Byte),
    len ≤ i + 4 * f1 → len ≤ i + 4 * f2 →
    dwordswapLoop len f1 i buf = dwordswapLoop len f2 i buf := by
  intro f1
  induction f1 with
  | zero =>
    intro f2 i buf h1 h2
    have : ¬ i < len := by omega
    cases f2 <;> simp [dwordswapLoop, this]
  | succ f1 ih =>
    intro f2 i buf h1 h2
    by_cases h : i < len
    · cases f2 with
      | zero => omega
      | succ f2 =>
        simp only [dwordswapLoop, h, if_true]
        cases swap buf i (i + 3) with
        | none => rfl
        | some b1 =>
          dsimp only
          cases swap b1 (i + 1) (i + 2) with
          | none => rfl
          | some b2 => exact ih f2 (i + 4) b2 (by omega) (by omega)
    · cases f2 <;> simp [dwordswapLoop, h]

theorem wordswapLoop_none (len : Nat) : ∀ (fuel i : Nat) (buf : List Byte),
    i % 2 = 0 → i ≤ buf.length → buf.length < up2 len →
    wordswapLoop len fuel i buf = none := by
  intro fuel
  induction fuel with
  | zero =>
    intro i buf hi hib hlen
    have : i < len := by unfold up2 at hlen; omega
    simp [wordswapLoop, this]
  | succ fuel ih =>
    intro i buf hi hib hlen
    have h : i < len := by unfold up2 at hlen; omega
    simp only [wordswapLoop, h, if_true]
    cases hs : swap buf i (i + 1) with
    | none => rfl
    | some b1 =>
      have hl := swap_length hs
      have hb : i + 1 < buf.length := by
        by_contra hc
        rw [swap_eq_none.2 (Or.inr (by omega))] at hs
        exact absurd hs (by simp)
      exact ih (i + 2) b1 (by omega) (by omega) (by omega)

theorem dwordswapLoop_none (len : Nat) : ∀ (fuel i : Nat) (buf : List Byte),
    i % 4 = 0 → i ≤ buf.length → buf.length < up4 len →
    dwordswapLoop len fuel i buf = none := by
  intro fuel
  induction fuel with
  | zero =>
    intro i buf hi hib hlen
    have : i < len := by unfold up4 at hlen; omega
    simp [dwordswapLoop, this]
  | succ fuel ih =>
    intro i buf hi hib hlen
    have h : i < len := by unfold up4 at hlen; omega
    simp only [dwordswapLoop, h, if_true]
    cases hs : swap buf i (i + 3) with
    | none => rfl
    | some b1 =>
      have hl := swap_length hs
      have hb : i + 3 < buf.length := by
        by_contra hc
        rw [swap_eq_none.2 (Or.inr (by omega))] at hs
        exact absurd hs (by simp)
      dsimp only
      cases hs2 : swap b1 (i + 1) (i + 2) with
      | none => rfl
      | some b2 =>
        have hl2 := swap_length hs2
        exact ih (i + 4) b2 (by omega) (by omega) (by omega)

/-- Within its bounds `wordswap` returns the buffer permuted by `wsIdx`. -/
theorem wordswap_spec (buf : List Byte) (len : Nat) (h : up2 len ≤ buf.length) :
    ∃ r, wordswap buf len = some r ∧ r.length = buf.length ∧
      ∀ j, r[j]? = if j < up2 len then buf[wsIdx j]? else buf[j]? := by
  obtain ⟨r, e, l, p⟩ := wordswapLoop_spec len len 0 buf (by omega) h (by omega)
  exact ⟨r, e, l, fun j => by simpa using p j⟩

/-- Within its bounds `dwordswap` returns the buffer permuted by `dwsIdx`. -/
theorem dwordswap_spec (buf : List Byte) (len : Nat) (h : up4 len ≤ buf.length) :
    ∃ r, dwordswap buf len = some r ∧ r.length = buf.length ∧
      ∀ j, r[j]? = if j < up4 len then buf[dwsIdx j]? else buf[j]? := by
  obtain ⟨r, e, l, p⟩ := dwordswapLoop_spec len len 0 buf (by omega) h (by omega)
  exact ⟨r, e, l, fun j => by simpa using p j⟩

/-- The call `wordswap(buf, len)` indexes outside the buffer exactly when the
buffer is shorter than `len` rounded up to an even number. -/
theorem wordswap_eq_none_iff {buf : List Byte} {len : Nat} :
    wordswap buf len = none ↔ buf.length < up2 len := by
  constructor
  · intro h
    by_contra hc
    obtain ⟨r, e, _⟩ := wordswap_spec buf len (by omega)
    rw [e] at h
    exact absurd h (by simp)
  · intro h
    exact wordswapLoop_none len len 0 buf (by omega) (by omega) h

/-- The call `dwordswap(buf, len)` indexes outside the buffer exactly when the
buffer is shorter than `len` rounded up to a multiple of 4. -/
theorem dwordswap_eq_none_iff {buf : List Byte} {len : Nat} :
    dwordswap buf len = none ↔ buf.length < up4 len := by
  constructor
  · intro h
    by_contra hc
    obtain ⟨r, e, _⟩ := dwordswap_spec buf len (by omega)
    rw [e] at h
    exact absurd h (by simp)
  · intro h
    exact dwordswapLoop_none len len 0 buf (by omega) (by omega) h

/-- More iterations than `len` never change the result of `wordswap`. -/
theorem wordswap_fuel (buf : List Byte) (len fuel : Nat) (h : len ≤ fuel) :
    wordswapLoop len fuel 0 buf = wordswap buf len :=
  wordswapLoop_fuel len fuel len 0 buf (by omega) (by omega)

/-- More iterations than `len` never change the result of `dwordswap`. -/
theorem dwordswap_fuel (buf : List Byte) (len fuel : Nat) (h : len ≤ fuel) :
    dwordswapLoop len fuel 0 buf = dwordswap buf len :=
  dwordswapLoop_fuel len fuel len 0 buf (by omega) (by omega)

/-! ## The format of a header -/

theorem pack_bytes (a b c d : Nat) (ha : a < 256) (hb : b < 256) (hc : c < 256)
    (hd : d < 256) :
    (((((a &&& 0xFF) <<< 24) % 2 ^ 32 ||| ((b &&& 0xFF) <<< 16)) % 2 ^ 32 |||
      ((c &&& 0xFF) <<< 8)) % 2 ^ 32 ||| (d &&& 0xFF)) % 2 ^ 32
      = a * 2 ^ 24 + b * 2 ^ 16 + c * 2 ^ 8 + d := by
  have m : ∀ x, x < 256 → x &&& 0xFF = x := fun x hx =>
    Nat.and_pow_two_sub_one_of_lt_two_pow (n := 8) (by simpa using hx)
  rw [m a ha, m b hb, m c hc, m d hd]
  simp only [Nat.shiftLeft_eq]
  have h1 : a * 2 ^ 24 ||| b * 2 ^ 16 = a * 2 ^ 24 + b * 2 ^ 16 := by
    have := Nat.mul_add_lt_is_or (i := 24) (b := b * 2 ^ 16) (by omega) a
    rw [Nat.mul_comm (2 ^ 24) a] at this
    exact this.symm
  have h2 : (a * 2 ^ 24 + b * 2 ^ 16) ||| c * 2 ^ 8
      = a * 2 ^ 24 + b * 2 ^ 16 + c * 2 ^ 8 := by
    have := Nat.mul_add_lt_is_or (i := 16) (b := c * 2 ^ 8) (by omega) (a * 2 ^ 8 + b)
    have e : 2 ^ 16 * (a * 2 ^ 8 + b) = a * 2 ^ 24 + b * 2 ^ 16 := by omega
    rw [e] at this
    exact this.symm
  have h3 : (a * 2 ^ 24 + b * 2 ^ 16 + c * 2 ^ 8) ||| d
      = a * 2 ^ 24 + b * 2 ^ 16 + c * 2 ^ 8 + d := by
    have := Nat.mul_add_lt_is_or (i := 8) (b := d) (by omega) (a * 2 ^ 16 + b * 2 ^ 8 + c)
    have e : 2 ^ 8 * (a * 2 ^ 16 + b * 2 ^ 8 + c)
        = a * 2 ^ 24 + b * 2 ^ 16 + c * 2 ^ 8 := by omega
    rw [e] at this
    exact this.symm
  rw [Nat.mod_eq_of_lt (a := a * 2 ^ 24) (by omega), h1,
    Nat.mod_eq_of_lt (a := a * 2 ^ 24 + b * 2 ^ 16) (by omega), h2,
    Nat.mod_eq_of_lt (a := a * 2 ^ 24 + b * 2 ^ 16 + c * 2 ^ 8) (by omega), h3]
  exact Nat.mod_eq_of_lt (by omega)

/-- The value of `format` is the big-endian number of the four magic bytes. -/
theorem format_eq (h : rom_header_t) :
    format h = (lat h).val * 2 ^ 24 + (pgs1 h).val * 2 ^ 16 + (pwd h).val * 2 ^ 8
      + (pgs2 h).val := by
  unfold format
  exact pack_bytes _ _ _ _ (lat h).isLt (pgs1 h).isLt (pwd h).isLt (pgs2 h).isLt

theorem format_take (h : rom_header_t) (n : Nat) (hn : 4 ≤ n) :
    format (h.take n) = format h := by
  have e : ∀ k, k < 4 → (h.take n).getD k 0 = h.getD k 0 := by
    intro k hk
    simp [List.getD_eq_getElem?_getD, List.getElem?_take, show k < n by omega]
  simp only [format_eq, lat, pgs1, pwd, pgs2]
  rw [e 0 (by omega), e 1 (by omega), e 2 (by omega), e 3 (by omega)]

theorem take_four_iff (h : List Byte) (a b c d : Byte) :
    h.take 4 = [a, b, c, d] ↔
      h[0]? = some a ∧ h[1]? = some b ∧ h[2]? = some c ∧ h[3]? = some d := by
  rcases h with _ | ⟨x, _ | ⟨y, _ | ⟨z, _ | ⟨w, t⟩⟩⟩⟩ <;> simp

/-- The value of `format` determines the first four bytes, unless a byte that
does not exist was read as zero. -/
theorem format_eq_iff (h : rom_header_t) (a b c d : Byte) (ha : a ≠ 0) (hb : b ≠ 0)
    (hc : c ≠ 0) (hd : d ≠ 0) :
    format h = a.val * 2 ^ 24 + b.val * 2 ^ 16 + c.val * 2 ^ 8 + d.val ↔
      h.take 4 = [a, b, c, d] := by
  have ha1 := a.isLt
  have hb1 := b.isLt
  have hc1 := c.isLt
  have hd1 := d.isLt
  have ha2 : a.val ≠ 0 := fun e => ha (Fin.ext e)
  have hb2 : b.val ≠ 0 := fun e => hb (Fin.ext e)
  have hc2 : c.val ≠ 0 := fun e => hc (Fin.ext e)
  have hd2 : d.val ≠ 0 := fun e => hd (Fin.ext e)
  rw [format_eq]
  rcases h with _ | ⟨x, _ | ⟨y, _ | ⟨z, _ | ⟨w, t⟩⟩⟩⟩ <;>
    simp only [lat, pgs1, pwd, pgs2, List.getD_cons_zero, List.getD_cons_succ, List.getD_nil,
      List.take_nil, List.take_succ_cons, List.take_zero, Fin.val_zero]
  · constructor
    · intro e; omega
    · intro e; simp at e
  · have := x.isLt
    constructor
    · intro e; omega
    · intro e; simp at e
  · have := x.isLt
    have := y.isLt
    constructor
    · intro e; omega
    · intro e; simp at e
  · have := x.isLt
    have := y.isLt
    have := z.isLt
    constructor
    · intro e; omega
    · intro e; simp at e
  · have := x.isLt
    have := y.isLt
    have := z.isLt
    have := w.isLt
    constructor
    · intro e
      have e1 : x = a := Fin.ext (by omega)
      have e2 : y = b := Fin.ext (by omega)
      have e3 : z = c := Fin.ext (by omega)
      have e4 : w = d := Fin.ext (by omega)
      simp [e1, e2, e3, e4]
    · intro e
      simp only [List.cons.injEq, and_true] at e
      obtain ⟨e1, e2, e3, e4⟩ := e
      subst e1 e2 e3 e4
      rfl

/-! ## The swaps of `convert` -/

theorem N64_ne_V64 : N64 ≠ V64 := by decide

theorem convert_swaps_eq (fmt dst_format : Nat) (data : List Byte) (romsize : Nat) :
    convert_swaps fmt dst_format data romsize =
      (layoutSwap fmt data romsize).bind fun d => layoutSwap dst_format d romsize := by
  unfold convert_swaps layoutSwap
  by_cases h1 : fmt = N64
  · have h2 : ¬ fmt = V64 := fun e => N64_ne_V64 (h1.symm.trans e)
    by_cases h3 : dst_format = V64
    · have h4 : ¬ dst_format = N64 := fun e => N64_ne_V64 (e.symm.trans h3)
      simp only [h1, h3, if_true, N64_ne_V64, N64_ne_V64.symm, if_false]
      cases dwordswap data romsize with
      | none => rfl
      | some d1 =>
        cases hw : wordswap d1 romsize <;> simp [hw]
    · simp only [h1, h3, if_true, N64_ne_V64, if_false]
      cases dwordswap data romsize with
      | none => rfl
      | some d1 => rfl
  · by_cases h2 : fmt = V64
    · by_cases h3 : dst_format = V64
      · have h4 : ¬ dst_format = N64 := fun e => N64_ne_V64 (e.symm.trans h3)
        simp only [h2, h3, if_true, N64_ne_V64, N64_ne_V64.symm, if_false]
        cases wordswap data romsize with
        | none => rfl
        | some d1 =>
          cases hw : wordswap d1 romsize <;> simp [hw]
      · simp only [h2, h3, if_true, N64_ne_V64.symm, if_false]
        cases wordswap data romsize with
        | none => rfl
        | some d1 => rfl
    · by_cases h3 : dst_format = V64
      · have h4 : ¬ dst_format = N64 := fun e => N64_ne_V64 (e.symm.trans h3)
        simp only [h1, h2, h3, if_true, N64_ne_V64.symm, if_false]
        cases hw : wordswap data romsize <;> simp [hw]
      · simp [h1, h2, h3]

theorem layoutIdx_lt (x j len : Nat) (h4 : len % 4 = 0) (hj : j < len) :
    layoutIdx x j < len := by
  unfold layoutIdx wsIdx dwsIdx
  split_ifs <;> omega

theorem layoutIdx_invol (x j : Nat) : layoutIdx x (layoutIdx x j) = j := by
  unfold layoutIdx wsIdx dwsIdx
  split_ifs <;> omega

theorem layoutSwap_spec (x : Nat) (buf : List Byte) (len : Nat) (h4 : len % 4 = 0)
    (hl : len ≤ buf.length) :
    ∃ r, layoutSwap x buf len = some r ∧ r.length = buf.length ∧
      ∀ j, r[j]? = if j < len then buf[layoutIdx x j]? else buf[j]? := by
  have u2 : up2 len = len := by unfold up2; omega
  have u4 : up4 len = len := by unfold up4; omega
  unfold layoutSwap layoutIdx
  by_cases h1 : x = N64
  · obtain ⟨r, e, l, p⟩ := dwordswap_spec buf len (by omega)
    exact ⟨r, by simp [h1, e], l, fun j => by simpa [h1, u4] using p j⟩
  · by_cases h2 : x = V64
    · obtain ⟨r, e, l, p⟩ := wordswap_spec buf len (by omega)
      subst h2
      exact ⟨r, by simp [N64_ne_V64.symm, e], l,
        fun j => by simpa [N64_ne_V64.symm, u2] using p j⟩
    · exact ⟨buf, by simp [h1, h2], rfl, fun j => by simp [h1, h2]⟩

/-- On an image whose length is a multiple of 4 the swaps of `convert` are
defined, and they permute the bytes by the index map of the target followed by
that of the source. -/
theorem convert_swaps_spec (fmt dst_format : Nat) (buf : List Byte) (len : Nat)
    (h4 : len % 4 = 0) (hl : len ≤ buf.length) :
    ∃ r, convert_swaps fmt dst_format buf len = some r ∧ r.length = buf.length ∧
      ∀ j, r[j]? = if j < len then buf[layoutIdx fmt (layoutIdx dst_format j)]?
        else buf[j]? := by
  obtain ⟨r1, e1, l1, p1⟩ := layoutSwap_spec fmt buf len h4 hl
  obtain ⟨r2, e2, l2, p2⟩ := layoutSwap_spec dst_format r1 len h4 (by omega)
  refine ⟨r2, by simp [convert_swaps_eq, e1, e2], by omega, fun j => ?_⟩
  rw [p2 j]
  by_cases hj : j < len
  · have := layoutIdx_lt dst_format j len h4 hj
    simp [hj, p1, this]
  · simp [hj, p1]

/-- Converting there and back gives the image again, on an image whose length
is a multiple of 4. -/
theorem convert_swaps_roundtrip (a b : Nat) (buf : List Byte) (h4 : buf.length % 4 = 0) :
    ∃ r, convert_swaps a b buf buf.length = some r ∧
      convert_swaps b a r buf.length = some buf := by
  obtain ⟨r1, e1, l1, p1⟩ := convert_swaps_spec a b buf buf.length h4 (le_refl _)
  obtain ⟨r2, e2, l2, p2⟩ := convert_swaps_spec b a r1 buf.length h4 (by omega)
  refine ⟨r1, e1, ?_⟩
  rw [e2]
  congr 1
  apply List.ext_getElem?
  intro j
  rw [p2 j]
  by_cases hj : j < buf.length
  · have h1 := layoutIdx_lt a j _ h4 hj
    have h2 := layoutIdx_lt b _ _ h4 h1
    simp [hj, p1, h2, layoutIdx_invol]
  · simp [hj, p1]

/-- Applied twice, `wordswap` gives the buffer again, whenever the buffer
reaches up to `len` rounded up to an even number. -/
theorem wordswap_wordswap (buf : List Byte) (len : Nat) (h : up2 len ≤ buf.length) :
    ∃ r, wordswap buf len = some r ∧ wordswap r len = some buf := by
  obtain ⟨r1, e1, l1, p1⟩ := wordswap_spec buf len h
  obtain ⟨r2, e2, l2, p2⟩ := wordswap_spec r1 len (by omega)
  refine ⟨r1, e1, ?_⟩
  rw [e2]
  congr 1
  apply List.ext_getElem?
  intro j
  rw [p2 j]
  by_cases hj : j < up2 len
  · have h1 : wsIdx j < up2 len := by unfold wsIdx up2 at *; split_ifs <;> omega
    have h3 : wsIdx (wsIdx j) = j := by unfold wsIdx; split_ifs <;> omega
    simp [hj, p1, h1, h3]
  · simp [hj, p1]

/-- Applied twice, `dwordswap` gives the buffer again, whenever the buffer
reaches up to `len` rounded up to a multiple of 4. -/
theorem dwordswap_dwordswap (buf : List Byte) (len : Nat) (h : up4 len ≤ buf.length) :
    ∃ r, dwordswap buf len = some r ∧ dwordswap r len = some buf := by
  obtain ⟨r1, e1, l1, p1⟩ := dwordswap_spec buf len h
  obtain ⟨r2, e2, l2, p2⟩ := dwordswap_spec r1 len (by omega)
  refine ⟨r1, e1, ?_⟩
  rw [e2]
  congr 1
  apply List.ext_getElem?
  intro j
  rw [p2 j]
  by_cases hj : j < up4 len
  · have h1 : dwsIdx j < up4 len := by unfold dwsIdx up4 at *; omega
    have h3 : dwsIdx (dwsIdx j) = j := by unfold dwsIdx; omega
    simp [hj, p1, h1, h3]
  · simp [hj, p1]

theorem magic_Z64 : magic Z64 = [0x80, 0x37, 0x12, 0x40] := by decide

theorem magic_V64 : magic V64 = [0x37, 0x80, 0x40, 0x12] := by decide

theorem magic_N64 : magic N64 = [0x40, 0x12, 0x37, 0x80] := by decide

theorem format_eq_Z64_iff (h : rom_header_t) :
    format h = Z64 ↔ h.take 4 = [0x80, 0x37, 0x12, 0x40] :=
  format_eq_iff h 0x80 0x37 0x12 0x40 (by decide) (by decide) (by decide) (by decide)

theorem format_eq_V64_iff (h : rom_header_t) :
    format h = V64 ↔ h.take 4 = [0x37, 0x80, 0x40, 0x12] :=
  format_eq_iff h 0x37 0x80 0x40 0x12 (by decide) (by decide) (by decide) (by decide)

theorem format_eq_N64_iff (h : rom_header_t) :
    format h = N64 ↔ h.take 4 = [0x40, 0x12, 0x37, 0x80] :=
  format_eq_iff h 0x40 0x12 0x37 0x80 (by decide) (by decide) (by decide) (by decide)

theorem format_eq_zero_iff (h : rom_header_t) (hl : 4 ≤ h.length) :
    format h = 0 ↔ h.take 4 = [0, 0, 0, 0] := by
  rcases h with _ | ⟨x, _ | ⟨y, _ | ⟨z, _ | ⟨w, t⟩⟩⟩⟩
  · simp at hl
  · simp at hl
  · simp at hl
  · simp at hl
  · have := x.isLt
    have := y.isLt
    have := z.isLt
    have := w.isLt
    rw [format_eq]
    simp only [lat, pgs1, pwd, pgs2, List.getD_cons_zero, List.getD_cons_succ,
      List.take_succ_cons, List.take_zero]
    constructor
    · intro e
      have e1 : x = 0 := Fin.ext (by simp; omega)
      have e2 : y = 0 := Fin.ext (by simp; omega)
      have e3 : z = 0 := Fin.ext (by simp; omega)
      have e4 : w = 0 := Fin.ext (by simp; omega)
      simp [e1, e2, e3, e4]
    · intro e
      simp only [List.cons.injEq, and_true] at e
      obtain ⟨e1, e2, e3, e4⟩ := e
      subst e1 e2 e3 e4
      rfl

/-- On a file that holds a complete header `load_rom` returns 0 and records the
format of the bytes as they are in the file. -/
theorem load_rom_some (f : List Byte) (hl : 64 ≤ f.length) :
    ∃ h, load_rom (some f) = some (0, some { f := f, h := h, fmt := format f }) := by
  have hh : header f = some (f.take 64) := by simp [header, sizeof_rom_header_t, hl]
  have hlen : (f.take 64).length = 64 := by simp [hl]
  have hfmt : format (f.take 64) = format f := format_take f 64 (by omega)
  have u4 : up4 64 = 64 := by decide
  have u2 : up2 64 = 64 := by decide
  simp only [load_rom, hh, hfmt, sizeof_rom_header_t]
  by_cases h1 : format f = N64
  · obtain ⟨r, e, l, _⟩ := dwordswap_spec (f.take 64) 64 (by omega)
    have h2 : ¬ format f = V64 := fun e => N64_ne_V64 (h1.symm.trans e)
    exact ⟨r, by simp [h1, e, N64_ne_V64]⟩
  · by_cases h2 : format f = V64
    · obtain ⟨r, e, l, _⟩ := wordswap_spec (f.take 64) 64 (by omega)
      exact ⟨r, by simp [h2, e, N64_ne_V64.symm]⟩
    · exact ⟨f.take 64, by simp [h1, h2]⟩

/-- On a buffer whose length is a multiple of 4, `dwordswap` reverses every
group of four bytes. -/
theorem dwordswap_groups (buf : List Byte) (h4 : buf.length % 4 = 0) :
    ∃ r, dwordswap buf buf.length = some r ∧ r.length = buf.length ∧
      ∀ i, i % 4 = 0 → i < buf.length →
        r[i]? = buf[i + 3]? ∧ r[i + 1]? = buf[i + 2]? ∧
        r[i + 2]? = buf[i + 1]? ∧ r[i + 3]? = buf[i]? := by
  have u4 : up4 buf.length = buf.length := by unfold up4; omega
  obtain ⟨r, e, l, p⟩ := dwordswap_spec buf buf.length (by omega)
  refine ⟨r, e, l, fun i hi hlt => ?_⟩
  have h1 : i + 1 < buf.length := by omega
  have h2 : i + 2 < buf.length := by omega
  have h3 : i + 3 < buf.length := by omega
  have e0 : dwsIdx i = i + 3 := by unfold dwsIdx; omega
  have e1 : dwsIdx (i + 1) = i + 2 := by unfold dwsIdx; omega
  have e2 : dwsIdx (i + 2) = i + 1 := by unfold dwsIdx; omega
  have e3 : dwsIdx (i + 3) = i := by unfold dwsIdx; omega
  rw [p i, p (i + 1), p (i + 2), p (i + 3), u4, if_pos hlt, if_pos h1, if_pos h2, if_pos h3,
    e0, e1, e2, e3]
  exact ⟨rfl, rfl, rfl, rfl⟩

/-! ## The claims -/

/-- C1. For each of the three known layouts, `format` returns the constant of
the layout exactly when the first four bytes of the header are the magic pattern
of the layout; the value of `format` is a function of the first four bytes
alone; the three constants are pairwise distinct. -/
theorem format_classifies_magic (h : rom_header_t) :
    (format h = Z64 ↔ h.take 4 = [0x80, 0x37, 0x12, 0x40]) ∧
    (format h = V64 ↔ h.take 4 = [0x37, 0x80, 0x40, 0x12]) ∧
    (format h = N64 ↔ h.take 4 = [0x40, 0x12, 0x37, 0x80]) ∧
    format h = format (h.take 4) ∧
    Z64 ≠ V64 ∧ Z64 ≠ N64 ∧ V64 ≠ N64 :=
  ⟨format_eq_Z64_iff h, format_eq_V64_iff h, format_eq_N64_iff h,
    (format_take h 4 (le_refl 4)).symm, by decide, by decide, by decide⟩

/-- C2, as stated, fails: the header of 64 zero bytes has none of the three
magic patterns, and `format` followed by `format_str` gives "NULL" for it, not
"Unknown". -/
theorem format_str_zero_header_is_NULL :
    (List.replicate 64 (0 : Byte)).take 4 ≠ [0x80, 0x37, 0x12, 0x40] ∧
    (List.replicate 64 (0 : Byte)).take 4 ≠ [0x37, 0x80, 0x40, 0x12] ∧
    (List.replicate 64 (0 : Byte)).take 4 ≠ [0x40, 0x12, 0x37, 0x80] ∧
    (format_str (format (List.replicate 64 0))).2 = "NULL" ∧
    (format_str (format (List.replicate 64 0))).2 ≠ "Unknown" := by
  decide

/-- C2, amended. For every header whose first four bytes are none of the three
magic patterns, `format` followed by `format_str` gives "Unknown", except for
the four bytes `00 00 00 00`, for which it gives "NULL". -/
theorem format_str_of_not_magic (h : rom_header_t) (hl : 4 ≤ h.length)
    (hz : h.take 4 ≠ [0x80, 0x37, 0x12, 0x40]) (hv : h.take 4 ≠ [0x37, 0x80, 0x40, 0x12])
    (hn : h.take 4 ≠ [0x40, 0x12, 0x37, 0x80]) :
    (format_str (format h)).2 = if h.take 4 = [0, 0, 0, 0] then "NULL" else "Unknown" := by
  have h1 : format h ≠ Z64 := fun e => hz ((format_eq_Z64_iff h).1 e)
  have h2 : format h ≠ V64 := fun e => hv ((format_eq_V64_iff h).1 e)
  have h3 : format h ≠ N64 := fun e => hn ((format_eq_N64_iff h).1 e)
  unfold format_str
  simp only [h1, h2, h3, if_false]
  by_cases h0 : format h = 0
  · simp [h0, (format_eq_zero_iff h hl).1 h0]
  · have : ¬ h.take 4 = [0, 0, 0, 0] := fun e => h0 ((format_eq_zero_iff h hl).2 e)
    simp [h0, this]

theorem format_str_of_not_magic_witness :
    (format_str (format [0xDE, 0xAD, 0xBE, 0xEF])).2 =
      if List.take 4 [(0xDE : Byte), 0xAD, 0xBE, 0xEF] = [0, 0, 0, 0] then "NULL"
      else "Unknown" :=
  format_str_of_not_magic [0xDE, 0xAD, 0xBE, 0xEF] (by decide) (by decide) (by decide)
    (by decide)

/-- C3. For every buffer whose length is a multiple of 4 and at least 4 and whose
first four bytes `format` classifies as a known layout `A`, and for every known
target layout `B`, the swaps of `convert` with source `A` and target `B` produce
a buffer that `format` classifies as `B`: its first four bytes are the magic
pattern of `B`. -/
theorem convert_swaps_classifies_as_target (buf : List Byte) (A B : Nat)
    (h4 : buf.length % 4 = 0) (hl : 4 ≤ buf.length) (hA : format buf = A)
    (hAk : A = Z64 ∨ A = V64 ∨ A = N64) (hBk : B = Z64 ∨ B = V64 ∨ B = N64) :
    ∃ r, convert_swaps A B buf buf.length = some r ∧ r.length = buf.length ∧
      format r = B ∧ r.take 4 = magic B := by
  obtain ⟨r, e, l, p⟩ := convert_swaps_spec A B buf buf.length h4 (le_refl _)
  refine ⟨r, e, l, ?_⟩
  have p0 := p 0
  have p1 := p 1
  have p2 := p 2
  have p3 := p 3
  have q0 : 0 < buf.length := by omega
  have q1 : 1 < buf.length := by omega
  have q2 : 2 < buf.length := by omega
  have q3 : 3 < buf.length := by omega
  simp only [q0, q1, q2, q3, if_true] at p0 p1 p2 p3
  rcases hAk with rfl | rfl | rfl
  · have hb := (take_four_iff _ _ _ _ _).1 ((format_eq_Z64_iff buf).1 hA)
    obtain ⟨b0, b1, b2, b3⟩ := hb
    rcases hBk with rfl | rfl | rfl
    · simp [layoutIdx, wsIdx, dwsIdx, N64, V64, Z64, b0, b1, b2, b3] at p0 p1 p2 p3
      rw [format_eq_Z64_iff, magic_Z64, take_four_iff]
      exact ⟨⟨p0, p1, p2, p3⟩, p0, p1, p2, p3⟩
    · simp [layoutIdx, wsIdx, dwsIdx, N64, V64, Z64, b0, b1, b2, b3] at p0 p1 p2 p3
      rw [format_eq_V64_iff, magic_V64, take_four_iff]
      exact ⟨⟨p0, p1, p2, p3⟩, p0, p1, p2, p3⟩
    · simp [layoutIdx, wsIdx, dwsIdx, N64, V64, Z64, b0, b1, b2, b3] at p0 p1 p2 p3
      rw [format_eq_N64_iff, magic_N64, take_four_iff]
      exact ⟨⟨p0, p1, p2, p3⟩, p0, p1, p2, p3⟩
  · have hb := (take_four_iff _ _ _ _ _).1 ((format_eq_V64_iff buf).1 hA)
    obtain ⟨b0, b1, b2, b3⟩ := hb
    rcases hBk with rfl | rfl | rfl
    · simp [layoutIdx, wsIdx, dwsIdx, N64, V64, Z64, b0, b1, b2, b3] at p0 p1 p2 p3
      rw [format_eq_Z64_iff, magic_Z64, take_four_iff]
      exact ⟨⟨p0, p1, p2, p3⟩, p0, p1, p2, p3⟩
    · simp [layoutIdx, wsIdx, dwsIdx, N64, V64, Z64, b0, b1, b2, b3] at p0 p1 p2 p3
      rw [format_eq_V64_iff, magic_V64, take_four_iff]
      exact ⟨⟨p0, p1, p2, p3⟩, p0, p1, p2, p3⟩
    · simp [layoutIdx, wsIdx, dwsIdx, N64, V64, Z64, b0, b1, b2, b3] at p0 p1 p2 p3
      rw [format_eq_N64_iff, magic_N64, take_four_iff]
      exact ⟨⟨p0, p1, p2, p3⟩, p0, p1, p2, p3⟩
  · have hb := (take_four_iff _ _ _ _ _).1 ((format_eq_N64_iff buf).1 hA)
    obtain ⟨b0, b1, b2, b3⟩ := hb
    rcases hBk with rfl | rfl | rfl
    · simp [layoutIdx, wsIdx, dwsIdx, N64, V64, Z64, b0, b1, b2, b3] at p0 p1 p2 p3
      rw [format_eq_Z64_iff, magic_Z64, take_four_iff]
      exact ⟨⟨p0, p1, p2, p3⟩, p0, p1, p2, p3⟩
    · simp [layoutIdx, wsIdx, dwsIdx, N64, V64, Z64, b0, b1, b2, b3] at p0 p1 p2 p3
      rw [format_eq_V64_iff, magic_V64, take_four_iff]
      exact ⟨⟨p0, p1, p2, p3⟩, p0, p1, p2, p3⟩
    · simp [layoutIdx, wsIdx, dwsIdx, N64, V64, Z64, b0, b1, b2, b3] at p0 p1 p2 p3
      rw [format_eq_N64_iff, magic_N64, take_four_iff]
      exact ⟨⟨p0, p1, p2, p3⟩, p0, p1, p2, p3⟩

theorem convert_swaps_classifies_as_target_witness :
    (exampleZ64.length % 4 = 0 ∧ 4 ≤ exampleZ64.length ∧ format exampleZ64 = Z64) ∧
    ∃ r, convert_swaps Z64 V64 exampleZ64 exampleZ64.length = some r ∧
      r.length = exampleZ64.length ∧ format r = V64 ∧ r.take 4 = magic V64 :=
  ⟨by decide, convert_swaps_classifies_as_target exampleZ64 Z64 V64 (by decide) (by decide)
    (by decide) (Or.inl rfl) (Or.inr (Or.inl rfl))⟩

/-- C4, at a failing input. On the 65-byte image `exampleOdd`, whose layout is
`Z64`, converting to `V64` runs `wordswap(data, 65)`, whose last iteration calls
`swap(data, 64, 65)`; index 65 is outside the 65-byte block, so the conversion
has no defined result and converting back does not give the image again. -/
theorem convert_odd_length_out_of_bounds :
    exampleOdd.length = 65 ∧ format exampleOdd = Z64 ∧
    swap exampleOdd 64 65 = none ∧
    convert_swaps Z64 V64 exampleOdd 65 = none ∧
    (convert_swaps Z64 V64 exampleOdd 65).bind (fun r => convert_swaps V64 Z64 r 65)
      ≠ some exampleOdd ∧
    convert ⟨some exampleOdd, true, true, true⟩ 3 V64 = none := by
  decide

/-- Where the loops stay inside the buffer the round trip holds: for every
source `A` and target `B`, so for all nine pairs of known layouts, and every
buffer whose length is a multiple of 4, converting from `A` to `B` and then from
`B` to `A` with the swaps of `convert` gives the buffer again. -/
theorem convert_swaps_there_and_back (A B : Nat) (buf : List Byte)
    (h4 : buf.length % 4 = 0) :
    ∃ r, convert_swaps A B buf buf.length = some r ∧
      convert_swaps B A r buf.length = some buf :=
  convert_swaps_roundtrip A B buf h4

theorem convert_swaps_there_and_back_witness :
    exampleZ64.length % 4 = 0 ∧
    ∃ r, convert_swaps V64 N64 exampleZ64 exampleZ64.length = some r ∧
      convert_swaps N64 V64 r exampleZ64.length = some exampleZ64 :=
  ⟨by decide, convert_swaps_there_and_back V64 N64 exampleZ64 (by decide)⟩

/-- C5. For every buffer of even length, `wordswap` over the whole buffer
returns a buffer of the same length in which the bytes of every pair starting at
an even index are exchanged. -/
theorem wordswap_exchanges_pairs (buf : List Byte) (h2 : buf.length % 2 = 0) :
    ∃ r, wordswap buf buf.length = some r ∧ r.length = buf.length ∧
      ∀ i, i % 2 = 0 → i < buf.length → r[i]? = buf[i + 1]? ∧ r[i + 1]? = buf[i]? := by
  have u2 : up2 buf.length = buf.length := by unfold up2; omega
  obtain ⟨r, e, l, p⟩ := wordswap_spec buf buf.length (by omega)
  refine ⟨r, e, l, fun i hi hlt => ?_⟩
  have h1 : i + 1 < buf.length := by omega
  have e1 : wsIdx i = i + 1 := by unfold wsIdx; simp [hi]
  have e2 : wsIdx (i + 1) = i := by unfold wsIdx; split_ifs <;> omega
  rw [p i, p (i + 1), u2, if_pos hlt, if_pos h1, e1, e2]
  exact ⟨rfl, rfl⟩

theorem wordswap_exchanges_pairs_witness :
    List.length [(0xA : Byte), 0xB, 0xC, 0xD] % 2 = 0 ∧
    ∃ r, wordswap [0xA, 0xB, 0xC, 0xD] (List.length [(0xA : Byte), 0xB, 0xC, 0xD]) = some r ∧
      r.length = List.length [(0xA : Byte), 0xB, 0xC, 0xD] ∧
      ∀ i, i % 2 = 0 → i < List.length [(0xA : Byte), 0xB, 0xC, 0xD] →
        r[i]? = [(0xA : Byte), 0xB, 0xC, 0xD][i + 1]? ∧
        r[i + 1]? = [(0xA : Byte), 0xB, 0xC, 0xD][i]? :=
  ⟨by decide, wordswap_exchanges_pairs [0xA, 0xB, 0xC, 0xD] (by decide)⟩

/-- C6. For every buffer whose length is a multiple of 4, `dwordswap` over the
whole buffer returns a buffer of the same length in which every group of four
bytes starting at a multiple of 4 is reversed. -/
theorem dwordswap_reverses_groups (buf : List Byte) (h4 : buf.length % 4 = 0) :
    ∃ r, dwordswap buf buf.length = some r ∧ r.length = buf.length ∧
      ∀ i, i % 4 = 0 → i < buf.length →
        r[i]? = buf[i + 3]? ∧ r[i + 1]? = buf[i + 2]? ∧
        r[i + 2]? = buf[i + 1]? ∧ r[i + 3]? = buf[i]? :=
  dwordswap_groups buf h4

theorem dwordswap_reverses_groups_witness :
    List.length [(0xA : Byte), 0xB, 0xC, 0xD] % 4 = 0 ∧
    ∃ r, dwordswap [0xA, 0xB, 0xC, 0xD] (List.length [(0xA : Byte), 0xB, 0xC, 0xD]) = some r ∧
      r.length = List.length [(0xA : Byte), 0xB, 0xC, 0xD] ∧
      ∀ i, i % 4 = 0 → i < List.length [(0xA : Byte), 0xB, 0xC, 0xD] →
        r[i]? = [(0xA : Byte), 0xB, 0xC, 0xD][i + 3]? ∧
        r[i + 1]? = [(0xA : Byte), 0xB, 0xC, 0xD][i + 2]? ∧
        r[i + 2]? = [(0xA : Byte), 0xB, 0xC, 0xD][i + 1]? ∧
        r[i + 3]? = [(0xA : Byte), 0xB, 0xC, 0xD][i]? :=
  ⟨by decide, dwordswap_reverses_groups [0xA, 0xB, 0xC, 0xD] (by decide)⟩

/-- C7, at failing inputs. On a 3-byte buffer the second iteration of `wordswap`
calls `swap(buf, 2, 3)`, and on a 5-byte buffer the second iteration of
`dwordswap` calls `swap(buf, 4, 7)`; both index outside the buffer, so neither
call has a defined result, and applying the primitive twice does not give the
buffer back. -/
theorem swap_primitives_out_of_bounds :
    swap [1, 2, 3] 2 3 = none ∧ wordswap [1, 2, 3] 3 = none ∧
    swap [1, 2, 3, 4, 5] 4 7 = none ∧ dwordswap [1, 2, 3, 4, 5] 5 = none ∧
    (wordswap [1, 2, 3] 3).bind (fun r => wordswap r 3) ≠ some [1, 2, 3] ∧
    (dwordswap [1, 2, 3, 4, 5] 5).bind (fun r => dwordswap r 5) ≠ some [1, 2, 3, 4, 5] := by
  decide

/-- Where the loops stay inside the buffer the primitives are self-inverse:
`wordswap` applied twice to a buffer of even length gives the buffer again, and
`dwordswap` applied twice to a buffer whose length is a multiple of 4 gives the
buffer again. -/
theorem swap_primitives_self_inverse :
    (∀ buf : List Byte, buf.length % 2 = 0 →
      ∃ r, wordswap buf buf.length = some r ∧ wordswap r buf.length = some buf) ∧
    (∀ buf : List Byte, buf.length % 4 = 0 →
      ∃ r, dwordswap buf buf.length = some r ∧ dwordswap r buf.length = some buf) :=
  ⟨fun buf h2 => wordswap_wordswap buf buf.length (by unfold up2; omega),
    fun buf h4 => dwordswap_dwordswap buf buf.length (by unfold up4; omega)⟩

theorem swap_primitives_self_inverse_witness :
    (List.length [(1 : Byte), 2, 3, 4, 5, 6] % 2 = 0 ∧
      ∃ r, wordswap [1, 2, 3, 4, 5, 6] (List.length [(1 : Byte), 2, 3, 4, 5, 6]) = some r ∧
        wordswap r (List.length [(1 : Byte), 2, 3, 4, 5, 6]) = some [1, 2, 3, 4, 5, 6]) ∧
    (List.length [(1 : Byte), 2, 3, 4] % 4 = 0 ∧
      ∃ r, dwordswap [1, 2, 3, 4] (List.length [(1 : Byte), 2, 3, 4]) = some r ∧
        dwordswap r (List.length [(1 : Byte), 2, 3, 4]) = some [1, 2, 3, 4]) :=
  ⟨⟨by decide, swap_primitives_self_inverse.1 [1, 2, 3, 4, 5, 6] (by decide)⟩,
    ⟨by decide, swap_primitives_self_inverse.2 [1, 2, 3, 4] (by decide)⟩⟩

/-- The outcome of `convert` when the format recorded for the file equals the
target format, for a known layout: it returns `EXIT_SUCCESS` at once, prints
that there is nothing to do and writes nothing, whatever `malloc`, `fread` and
the second `fopen` would answer. -/
theorem convert_same_format_noop (sys : Sys) (f : List Byte) (argc dst_format : Nat)
    (hargc : 3 ≤ argc) (hf : sys.file = some f) (hl : 64 ≤ f.length)
    (hk : dst_format = Z64 ∨ dst_format = V64 ∨ dst_format = N64)
    (hfmt : format f = dst_format) :
    convert sys argc dst_format =
      some ⟨EXIT_SUCCESS,
        ["Input is already " ++ (format_str dst_format).2 ++ ". Nothing to do!\n"], none⟩ := by
  obtain ⟨h, e⟩ := load_rom_some f hl
  have ha : ¬ argc < 3 := by omega
  have ho : (format_str dst_format).1 = [] := by
    rcases hk with rfl | rfl | rfl <;> decide
  simp only [convert, ha, if_false, hf, e, hfmt, if_true, ho, List.nil_append, ne_eq,
    not_true_eq_false]

theorem convert_same_format_noop_witness :
    (3 ≤ 3 ∧ 64 ≤ exampleZ64.length ∧ format exampleZ64 = Z64) ∧
    convert ⟨some exampleZ64, false, false, false⟩ 3 Z64 =
      some ⟨EXIT_SUCCESS,
        ["Input is already " ++ (format_str Z64).2 ++ ". Nothing to do!\n"], none⟩ :=
  ⟨by decide, convert_same_format_noop ⟨some exampleZ64, false, false, false⟩ exampleZ64 3 Z64
    (by decide) rfl (by decide) (Or.inl rfl) (by decide)⟩

/-- C9, as stated, fails: the image `exampleUnknown` begins with `DE AD BE EF`,
which `format` classifies as none of the three layouts, and converting it to
`V64` returns `EXIT_SUCCESS` and writes the image with `wordswap` applied. -/
theorem convert_unknown_source_succeeds :
    format exampleUnknown ≠ Z64 ∧ format exampleUnknown ≠ V64 ∧
    format exampleUnknown ≠ N64 ∧
    (convert ⟨some exampleUnknown, true, true, true⟩ 3 V64).map
      (fun o => (o.status, o.written)) =
      some (EXIT_SUCCESS, some ([0xAD, 0xDE, 0xEF, 0xBE] ++ List.replicate 60 0)) ∧
    wordswap exampleUnknown 64 = some ([0xAD, 0xDE, 0xEF, 0xBE] ++ List.replicate 60 0) ∧
    [0xAD, 0xDE, 0xEF, 0xBE] ++ List.replicate 60 0 ≠ exampleUnknown := by
  decide

/-- C9, amended. A source of unknown layout is not rejected: for every known
target layout, on an image with a complete header and a length that is a
multiple of 4, and when the library calls succeed, `convert` applies the
primitive of the target layout alone to the image (`wordswap` for `V64`,
`dwordswap` for `N64`, nothing for `Z64`), writes the result and returns
`EXIT_SUCCESS`. -/
theorem convert_unknown_source_applies_target_swap (sys : Sys) (f : List Byte)
    (argc dst_format : Nat) (hargc : 3 ≤ argc) (hf : sys.file = some f)
    (hl : 64 ≤ f.length) (h4 : f.length % 4 = 0) (hm : sys.malloc_ok = true)
    (hr : sys.fread_ok = true) (hw : sys.fopen_out_ok = true)
    (hz : format f ≠ Z64) (hv : format f ≠ V64) (hn : format f ≠ N64)
    (hk : dst_format = Z64 ∨ dst_format = V64 ∨ dst_format = N64) :
    ∃ o r, convert sys argc dst_format = some o ∧ o.status = EXIT_SUCCESS ∧
      o.written = some r ∧
      (if dst_format = V64 then wordswap f f.length
        else if dst_format = N64 then dwordswap f f.length else some f) = some r := by
  obtain ⟨h, e⟩ := load_rom_some f hl
  have ha : ¬ argc < 3 := by omega
  have hne : format f ≠ dst_format := by
    rcases hk with rfl | rfl | rfl <;> assumption
  obtain ⟨r, er, _, _⟩ := convert_swaps_spec (format f) dst_format f f.length h4 (le_refl _)
  refine ⟨⟨EXIT_SUCCESS, (format_str (format f)).1 ++ (format_str dst_format).1 ++
    ["Converting " ++ (format_str (format f)).2 ++ " to " ++
      (format_str dst_format).2 ++ "\n"], some r⟩, r, ?_, rfl, rfl, ?_⟩
  · simp only [convert, ha, if_false, hf, e, hne, hm, hr, hw, er, if_true, Bool.not_true,
      Bool.false_eq_true, ne_eq, not_true_eq_false]
  · rw [convert_swaps_eq] at er
    have e1 : layoutSwap (format f) f f.length = some f := by simp [layoutSwap, hv, hn]
    rw [e1] at er
    simp only [Option.some_bind, layoutSwap] at er
    rw [← er]
    by_cases c1 : dst_format = V64
    · subst c1
      simp [N64_ne_V64.symm]
    · simp [c1]

theorem convert_unknown_source_applies_target_swap_witness :
    (64 ≤ exampleUnknown.length ∧ exampleUnknown.length % 4 = 0 ∧
      format exampleUnknown ≠ Z64 ∧ format exampleUnknown ≠ V64 ∧
      format exampleUnknown ≠ N64) ∧
    ∃ o r, convert ⟨some exampleUnknown, true, true, true⟩ 3 N64 = some o ∧
      o.status = EXIT_SUCCESS ∧ o.written = some r ∧
      (if N64 = V64 then wordswap exampleUnknown exampleUnknown.length
        else if N64 = N64 then dwordswap exampleUnknown exampleUnknown.length
        else some exampleUnknown) = some r :=
  ⟨by decide, convert_unknown_source_applies_target_swap ⟨some exampleUnknown, true, true, true⟩
    exampleUnknown 3 N64 (by decide) rfl (by decide) (by decide) rfl rfl rfl (by decide)
    (by decide) (by decide) (Or.inr (Or.inr rfl))⟩

/-- C10. For every buffer whose length is a multiple of 4 and that begins with
the `Z64` magic `80 37 12 40`, the swaps of `convert` towards `N64` reverse every
group of four bytes of the buffer; on the 64-byte buffer `exampleZ64`, which
holds `AA BB CC DD` at offset 4, the result holds `DD CC BB AA` at offset 4, and
`convert` writes that result. -/
theorem convert_Z64_to_N64_reverses_groups :
    (∀ buf : List Byte, buf.length % 4 = 0 → buf.take 4 = [0x80, 0x37, 0x12, 0x40] →
      ∃ r, convert_swaps (format buf) N64 buf buf.length = some r ∧
        r.length = buf.length ∧
        ∀ i, i % 4 = 0 → i < buf.length →
          r[i]? = buf[i + 3]? ∧ r[i + 1]? = buf[i + 2]? ∧
          r[i + 2]? = buf[i + 1]? ∧ r[i + 3]? = buf[i]?) ∧
    (exampleZ64.length = 64 ∧ (exampleZ64.drop 4).take 4 = [0xAA, 0xBB, 0xCC, 0xDD] ∧
      (convert_swaps (format exampleZ64) N64 exampleZ64 64).map
        (fun r => (r.drop 4).take 4) = some [0xDD, 0xCC, 0xBB, 0xAA] ∧
      (convert ⟨some exampleZ64, true, true, true⟩ 3 N64).map
        (fun o => (o.status, o.written)) =
        some (EXIT_SUCCESS, convert_swaps (format exampleZ64) N64 exampleZ64 64)) := by
  refine ⟨fun buf h4 hm => ?_, by decide⟩
  have hf : format buf = Z64 := (format_eq_Z64_iff buf).2 hm
  rw [hf]
  obtain ⟨r, e, _⟩ := dwordswap_groups buf h4
  refine ⟨r, ?_, ‹_›⟩
  rw [convert_swaps_eq]
  simp [layoutSwap, Z64, N64, V64, e]

theorem convert_Z64_to_N64_reverses_groups_witness :
    (exampleZ64.length % 4 = 0 ∧ exampleZ64.take 4 = [0x80, 0x37, 0x12, 0x40]) ∧
    ∃ r, convert_swaps (format exampleZ64) N64 exampleZ64 exampleZ64.length = some r ∧
      r.length = exampleZ64.length ∧
      ∀ i, i % 4 = 0 → i < exampleZ64.length →
        r[i]? = exampleZ64[i + 3]? ∧ r[i + 1]? = exampleZ64[i + 2]? ∧
        r[i + 2]? = exampleZ64[i + 1]? ∧ r[i + 3]? = exampleZ64[i]? :=
  ⟨by decide, convert_Z64_to_N64_reverses_groups.1 exampleZ64 (by decide) (by decide)⟩

/-! ## The stages of `convert` -/

theorem convert_to_big_endian_eq (fmt : Nat) (data : List Byte) (romsize : Nat) :
    convert_to_big_endian fmt data romsize = layoutSwap fmt data romsize := by
  unfold convert_to_big_endian layoutSwap
  by_cases h1 : fmt = N64
  · have h2 : ¬ fmt = V64 := fun e => N64_ne_V64 (h1.symm.trans e)
    simp only [h1, if_true, N64_ne_V64, if_false]
    cases dwordswap data romsize <;> rfl
  · by_cases h2 : fmt = V64
    · subst h2
      simp [N64_ne_V64.symm]
    · simp [h1, h2]

theorem convert_to_final_format_eq (dst_format : Nat) (data : List Byte) (romsize : Nat) :
    convert_to_final_format dst_format data romsize = layoutSwap dst_format data romsize := by
  unfold convert_to_final_format layoutSwap
  by_cases h1 : dst_format = V64
  · have h2 : ¬ dst_format = N64 := fun e => N64_ne_V64 (e.symm.trans h1)
    simp only [h1, if_true, N64_ne_V64.symm, if_false]
    cases wordswap data romsize <;> rfl
  · by_cases h2 : dst_format = N64
    · subst h2
      simp [N64_ne_V64]
    · simp [h1, h2]

/-- The swaps of `convert` are its first stage followed by its second stage. -/
theorem convert_swaps_stages (fmt dst_format : Nat) (data : List Byte) (romsize : Nat) :
    convert_swaps fmt dst_format data romsize =
      (convert_to_big_endian fmt data romsize).bind
        fun d => convert_to_final_format dst_format d romsize := by
  rw [convert_swaps_eq, convert_to_big_endian_eq]
  congr 1
  funext d
  rw [convert_to_final_format_eq]

/-- On a buffer of even length, `wordswap` exchanges the bytes of every pair. -/
theorem wordswap_pairs (buf : List Byte) (h2 : buf.length % 2 = 0) :
    ∃ r, wordswap buf buf.length = some r ∧ r.length = buf.length ∧
      ∀ i, i % 2 = 0 → i < buf.length → r[i]? = buf[i + 1]? ∧ r[i + 1]? = buf[i]? := by
  have u2 : up2 buf.length = buf.length := by unfold up2; omega
  obtain ⟨r, e, l, p⟩ := wordswap_spec buf buf.length (by omega)
  refine ⟨r, e, l, fun i hi hlt => ?_⟩
  have h1 : i + 1 < buf.length := by omega
  have e1 : wsIdx i = i + 1 := by unfold wsIdx; simp [hi]
  have e2 : wsIdx (i + 1) = i := by unfold wsIdx; split_ifs <;> omega
  rw [p i, p (i + 1), u2, if_pos hlt, if_pos h1, e1, e2]
  exact ⟨rfl, rfl⟩

/-- The index from which the composition of `wordswap` and `dwordswap` takes
the byte it leaves at index `j`: the same place in the other half of the group
of four. -/
theorem wsIdx_dwsIdx (j : Nat) :
    wsIdx (dwsIdx j) = j - j % 4 + (j % 4 + 2) % 4 ∧
    dwsIdx (wsIdx j) = j - j % 4 + (j % 4 + 2) % 4 := by
  unfold wsIdx dwsIdx
  constructor <;> split_ifs <;> omega

/-- On a length that is a multiple of 4, `wordswap` and `dwordswap` commute, and
their composition moves every byte to the same place in the other half of its
group of four. -/
theorem wordswap_dwordswap_comm (buf : List Byte) (len : Nat) (h4 : len % 4 = 0)
    (hl : len ≤ buf.length) :
    ∃ r, (wordswap buf len).bind (fun b => dwordswap b len) = some r ∧
      (dwordswap buf len).bind (fun b => wordswap b len) = some r ∧
      r.length = buf.length ∧
      ∀ j, r[j]? = if j < len then buf[j - j % 4 + (j % 4 + 2) % 4]? else buf[j]? := by
  have u2 : up2 len = len := by unfold up2; omega
  have u4 : up4 len = len := by unfold up4; omega
  obtain ⟨a1, ea1, la1, pa1⟩ := wordswap_spec buf len (by omega)
  obtain ⟨a2, ea2, la2, pa2⟩ := dwordswap_spec a1 len (by omega)
  obtain ⟨b1, eb1, lb1, pb1⟩ := dwordswap_spec buf len (by omega)
  obtain ⟨b2, eb2, lb2, pb2⟩ := wordswap_spec b1 len (by omega)
  have qa : ∀ j, a2[j]? = if j < len then buf[j - j % 4 + (j % 4 + 2) % 4]? else buf[j]? := by
    intro j
    rw [pa2 j, u4]
    by_cases hj : j < len
    · have h1 : dwsIdx j < len := by unfold dwsIdx; omega
      simp [hj, pa1, u2, h1, (wsIdx_dwsIdx j).1]
    · simp [hj, pa1, u2]
  have qb : ∀ j, b2[j]? = if j < len then buf[j - j % 4 + (j % 4 + 2) % 4]? else buf[j]? := by
    intro j
    rw [pb2 j, u2]
    by_cases hj : j < len
    · have h1 : wsIdx j < len := by unfold wsIdx; split_ifs <;> omega
      simp [hj, pb1, u4, h1, (wsIdx_dwsIdx j).2]
    · simp [hj, pb1, u4]
  have e : b2 = a2 := by
    apply List.ext_getElem?
    intro j
    rw [qa j, qb j]
  refine ⟨a2, by simp [ea1, ea2], by simp [eb1, eb2, e], by omega, qa⟩

/-- With equal source and target the swaps of `convert` change nothing, on a
length that is a multiple of 4. -/
theorem convert_swaps_same (a : Nat) (buf : List Byte) (len : Nat) (h4 : len % 4 = 0)
    (hl : len ≤ buf.length) : convert_swaps a a buf len = some buf := by
  obtain ⟨r, e, l, p⟩ := convert_swaps_spec a a buf len h4 hl
  rw [e]
  congr 1
  apply List.ext_getElem?
  intro j
  rw [p j]
  by_cases hj : j < len <;> simp [hj, layoutIdx_invol]

/-- The first stage of `convert` turns the magic of a known layout into the
magic of `Z64`. -/
theorem layoutSwap_to_Z64 (buf : List Byte) (len : Nat) (h4 : len % 4 = 0) (h : 4 ≤ len)
    (hl : len ≤ buf.length)
    (hk : format buf = Z64 ∨ format buf = V64 ∨ format buf = N64) :
    ∃ r, layoutSwap (format buf) buf len = some r ∧ r.length = buf.length ∧
      r.take 4 = [0x80, 0x37, 0x12, 0x40] := by
  obtain ⟨r, e, l, p⟩ := layoutSwap_spec (format buf) buf len h4 hl
  refine ⟨r, e, l, ?_⟩
  have p0 := p 0
  have p1 := p 1
  have p2 := p 2
  have p3 := p 3
  have q0 : 0 < len := by omega
  have q1 : 1 < len := by omega
  have q2 : 2 < len := by omega
  have q3 : 3 < len := by omega
  simp only [q0, q1, q2, q3, if_true] at p0 p1 p2 p3
  rw [take_four_iff]
  rcases hk with hA | hA | hA
  · obtain ⟨b0, b1, b2, b3⟩ := (take_four_iff _ _ _ _ _).1 ((format_eq_Z64_iff buf).1 hA)
    rw [hA] at p0 p1 p2 p3
    simp [layoutIdx, wsIdx, dwsIdx, N64, V64, Z64, b0, b1, b2, b3] at p0 p1 p2 p3
    exact ⟨p0, p1, p2, p3⟩
  · obtain ⟨b0, b1, b2, b3⟩ := (take_four_iff _ _ _ _ _).1 ((format_eq_V64_iff buf).1 hA)
    rw [hA] at p0 p1 p2 p3
    simp [layoutIdx, wsIdx, dwsIdx, N64, V64, Z64, b0, b1, b2, b3] at p0 p1 p2 p3
    exact ⟨p0, p1, p2, p3⟩
  · obtain ⟨b0, b1, b2, b3⟩ := (take_four_iff _ _ _ _ _).1 ((format_eq_N64_iff buf).1 hA)
    rw [hA] at p0 p1 p2 p3
    simp [layoutIdx, wsIdx, dwsIdx, N64, V64, Z64, b0, b1, b2, b3] at p0 p1 p2 p3
    exact ⟨p0, p1, p2, p3⟩

/-! ## Indices used and iterations run -/

/-- The buffer that `wordswapRun` returns is the one of `wordswapLoop`. -/
theorem wordswapRun_fst (len : Nat) : ∀ (fuel i : Nat) (buf : List Byte),
    (wordswapRun len fuel i buf).1 = wordswapLoop len fuel i buf := by
  intro fuel
  induction fuel with
  | zero => intro i buf; rfl
  | succ fuel ih =>
    intro i buf
    by_cases h : i < len
    · simp only [wordswapRun, wordswapLoop, h, if_true]
      cases swap buf i (i + 1) with
      | none => rfl
      | some b1 => exact ih (i + 2) b1
    · simp [wordswapRun, wordswapLoop, h]

/-- The buffer that `dwordswapRun` returns is the one of `dwordswapLoop`. -/
theorem dwordswapRun_fst (len : Nat) : ∀ (fuel i : Nat) (buf : List Byte),
    (dwordswapRun len fuel i buf).1 = dwordswapLoop len fuel i buf := by
  intro fuel
  induction fuel with
  | zero => intro i buf; rfl
  | succ fuel ih =>
    intro i buf
    by_cases h : i < len
    · simp only [dwordswapRun, dwordswapLoop, h, if_true]
      cases swap buf i (i + 3) with
      | none => rfl
      | some b1 =>
        dsimp only
        cases swap b1 (i + 1) (i + 2) with
        | none => rfl
        | some b2 => exact ih (i + 4) b2
    · simp [dwordswapRun, dwordswapLoop, h]

/-- On an even `len` within the buffer, the loop of `wordswap` started at an
even `i` uses only indices from `i` up to `len`, and runs `(len - i) / 2`
iterations. -/
theorem wordswapRun_trace (len : Nat) : ∀ (fuel i : Nat) (buf : List Byte),
    i % 2 = 0 → len % 2 = 0 → len ≤ buf.length → len ≤ i + 2 * fuel →
    (∀ k ∈ (wordswapRun len fuel i buf).2.1, i ≤ k ∧ k < len) ∧
      (wordswapRun len fuel i buf).2.2 = (len - i) / 2 := by
  intro fuel
  induction fuel with
  | zero =>
    intro i buf hi h2 hl hf
    have : ¬ i < len := by omega
    simp only [wordswapRun]
    refine ⟨fun k hk => by simp at hk, by omega⟩
  | succ fuel ih =>
    intro i buf hi h2 hl hf
    by_cases h : i < len
    · obtain ⟨b1, e1, l1, _⟩ := swap_some buf i (i + 1) (by omega) (by omega)
      obtain ⟨t, c⟩ := ih (i + 2) b1 (by omega) h2 (by omega) (by omega)
      simp only [wordswapRun, h, if_true, e1]
      refine ⟨fun k hk => ?_, by omega⟩
      simp only [swapAccesses, List.cons_append, List.nil_append, List.mem_cons] at hk
      rcases hk with hk | hk | hk | hk | hk
      · omega
      · omega
      · omega
      · omega
      · have := t k hk
        omega
    · simp only [wordswapRun, h, if_false]
      refine ⟨fun k hk => by simp at hk, by omega⟩

/-- On a `len` that is a multiple of 4 within the buffer, the loop of
`dwordswap` started at a multiple of 4 uses only indices from `i` up to `len`,
and runs `(len - i) / 4` iterations. -/
theorem dwordswapRun_trace (len : Nat) : ∀ (fuel i : Nat) (buf : List Byte),
    i % 4 = 0 → len % 4 = 0 → len ≤ buf.length → len ≤ i + 4 * fuel →
    (∀ k ∈ (dwordswapRun len fuel i buf).2.1, i ≤ k ∧ k < len) ∧
      (dwordswapRun len fuel i buf).2.2 = (len - i) / 4 := by
  intro fuel
  induction fuel with
  | zero =>
    intro i buf hi h4 hl hf
    have : ¬ i < len := by omega
    simp only [dwordswapRun]
    refine ⟨fun k hk => by simp at hk, by omega⟩
  | succ fuel ih =>
    intro i buf hi h4 hl hf
    by_cases h : i < len
    · obtain ⟨b1, e1, l1, _⟩ := swap_some buf i (i + 3) (by omega) (by omega)
      obtain ⟨b2, e2, l2, _⟩ := swap_some b1 (i + 1) (i + 2) (by omega) (by omega)
      obtain ⟨t, c⟩ := ih (i + 4) b2 (by omega) h4 (by omega) (by omega)
      simp only [dwordswapRun, h, if_true, e1, e2]
      refine ⟨fun k hk => ?_, by omega⟩
      simp only [swapAccesses, List.cons_append, List.nil_append, List.mem_cons] at hk
      rcases hk with hk | hk | hk | hk | hk | hk | hk | hk | hk
      · omega
      · omega
      · omega
      · omega
      · omega
      · omega
      · omega
      · omega
      · have := t k hk
        omega
    · simp only [dwordswapRun, h, if_false]
      refine ⟨fun k hk => by simp at hk, by omega⟩

/-! ## The arithmetic of `clockrate` -/

theorem clockrate_of_terms (x : Nat) :
    (x &&& 0xFF) >>> 24 = 0 ∧ (((x <<< 8) % 2 ^ 32) &&& 0xFF) >>> 16 = 0 ∧
    (((x <<< 16) % 2 ^ 32) &&& 0xFF) >>> 8 = 0 ∧ ((x <<< 24) % 2 ^ 32) &&& 0xFF = 0 := by
  have m : ∀ y, y &&& 0xFF = y % 256 := fun y => Nat.and_pow_two_sub_one_eq_mod y 8
  simp only [m, Nat.shiftLeft_eq, Nat.shiftRight_eq_div_pow]
  refine ⟨?_, ?_, ?_, ?_⟩ <;> omega

theorem clockrate_of_eq_zero (x : Nat) : clockrate_of x = 0 := by
  obtain ⟨h1, h2, h3, h4⟩ := clockrate_of_terms x
  simp only [clockrate_of, h1, h2, h3, h4, Nat.zero_or]

/-! ## The claims, continued -/

/-- C11. For every buffer whose length is a multiple of 4 and that begins with
the `V64` magic `37 80 40 12`, the swaps of `convert` towards `Z64` give a
buffer that begins with `80 37 12 40`; they are one `wordswap` over the whole
buffer, so every group of four bytes is permuted as the first one is. -/
theorem convert_V64_to_Z64_whole_image (buf : List Byte) (h4 : buf.length % 4 = 0)
    (hm : buf.take 4 = [0x37, 0x80, 0x40, 0x12]) :
    ∃ r, convert_swaps (format buf) Z64 buf buf.length = some r ∧
      wordswap buf buf.length = some r ∧ r.length = buf.length ∧
      r.take 4 = [0x80, 0x37, 0x12, 0x40] ∧
      ∀ i, i % 4 = 0 → i < buf.length →
        r[i]? = buf[i + 1]? ∧ r[i + 1]? = buf[i]? ∧
        r[i + 2]? = buf[i + 3]? ∧ r[i + 3]? = buf[i + 2]? := by
  have hf : format buf = V64 := (format_eq_V64_iff buf).2 hm
  obtain ⟨b0, b1, b2, b3⟩ := (take_four_iff _ _ _ _ _).1 hm
  have hlen : 3 < buf.length := by
    by_contra hc
    rw [List.getElem?_eq_none (by omega)] at b3
    exact absurd b3 (by simp)
  obtain ⟨r, e, l, p⟩ := wordswap_pairs buf (by omega)
  refine ⟨r, ?_, e, l, ?_, fun i hi hlt => ?_⟩
  · rw [hf, convert_swaps_eq]
    simp [layoutSwap, Z64, N64, V64, e]
  · obtain ⟨p0, p1⟩ := p 0 (by omega) (by omega)
    obtain ⟨p2, p3⟩ := p 2 (by omega) (by omega)
    rw [take_four_iff]
    simp only [Nat.zero_add, Nat.reduceAdd] at p0 p1 p2 p3
    exact ⟨p0.trans b1, p1.trans b0, p2.trans b3, p3.trans b2⟩
  · obtain ⟨p0, p1⟩ := p i (by omega) hlt
    obtain ⟨p2, p3⟩ := p (i + 2) (by omega) (by omega)
    exact ⟨p0, p1, p2, p3⟩

theorem convert_V64_to_Z64_whole_image_witness :
    (exampleV64.length % 4 = 0 ∧ exampleV64.take 4 = [0x37, 0x80, 0x40, 0x12]) ∧
    ∃ r, convert_swaps (format exampleV64) Z64 exampleV64 exampleV64.length = some r ∧
      wordswap exampleV64 exampleV64.length = some r ∧ r.length = exampleV64.length ∧
      r.take 4 = [0x80, 0x37, 0x12, 0x40] ∧
      ∀ i, i % 4 = 0 → i < exampleV64.length →
        r[i]? = exampleV64[i + 1]? ∧ r[i + 1]? = exampleV64[i]? ∧
        r[i + 2]? = exampleV64[i + 3]? ∧ r[i + 3]? = exampleV64[i + 2]? :=
  ⟨by decide, convert_V64_to_Z64_whole_image exampleV64 (by decide) (by decide)⟩

/-- C12, as stated, fails: on the `V64` header `exampleV64` (magic `37 80 40 12`)
the first stage of `convert` is `wordswap`, which gives the `Z64` header, and
not `dwordswap`; on the `N64` header `exampleN64` (magic `40 12 37 80`) it is
`dwordswap`, and not `wordswap`. -/
theorem convert_to_big_endian_pairing :
    format exampleV64 = V64 ∧
    convert_to_big_endian V64 exampleV64 64 = wordswap exampleV64 64 ∧
    convert_to_big_endian V64 exampleV64 64 = some exampleZ64 ∧
    convert_to_big_endian V64 exampleV64 64 ≠ dwordswap exampleV64 64 ∧
    format exampleN64 = N64 ∧
    convert_to_big_endian N64 exampleN64 64 = dwordswap exampleN64 64 ∧
    convert_to_big_endian N64 exampleN64 64 = some exampleZ64 ∧
    convert_to_big_endian N64 exampleN64 64 ≠ wordswap exampleN64 64 := by
  decide

/-- C12, amended. The first stage of `convert` selects its primitive by the
source layout: a `Z64` source (magic `80 37 12 40`) gets no transform, a `V64`
source (magic `37 80 40 12`) gets `wordswap`, and an `N64` source (magic
`40 12 37 80`) gets `dwordswap`; the swaps of `convert` are this stage followed
by the stage of the target. -/
theorem convert_to_big_endian_selects (data : List Byte) (romsize : Nat) :
    convert_to_big_endian Z64 data romsize = some data ∧
    convert_to_big_endian V64 data romsize = wordswap data romsize ∧
    convert_to_big_endian N64 data romsize = dwordswap data romsize ∧
    ∀ fmt dst_format, convert_swaps fmt dst_format data romsize =
      (convert_to_big_endian fmt data romsize).bind
        fun d => convert_to_final_format dst_format d romsize := by
  refine ⟨?_, ?_, ?_, fun fmt dst_format => convert_swaps_stages fmt dst_format data romsize⟩
  · simp [convert_to_big_endian_eq, layoutSwap, Z64, N64, V64]
  · simp [convert_to_big_endian_eq, layoutSwap, N64, V64]
  · simp [convert_to_big_endian_eq, layoutSwap]

/-- C13. For all nine pairs of known layouts and every buffer whose length is a
multiple of 4, the two stages of `convert` (the primitive of the source, then
the primitive of the target) give the same buffer as the single composed
transform of the pair applied once: the identity for equal layouts, `wordswap`
between `Z64` and `V64`, `dwordswap` between `Z64` and `N64`, and `wordswap`
composed with `dwordswap`, in either order, between `V64` and `N64`. -/
theorem convert_swaps_refines_composed (A B : Nat) (buf : List Byte)
    (hA : A = Z64 ∨ A = V64 ∨ A = N64) (hB : B = Z64 ∨ B = V64 ∨ B = N64)
    (h4 : buf.length % 4 = 0) :
    ∃ r, convert_swaps A B buf buf.length = some r ∧
      (convert_to_big_endian A buf buf.length).bind
        (fun d => convert_to_final_format B d buf.length) = some r ∧
      composedTransform A B buf buf.length = some r ∧
      (wordswap buf buf.length).bind (fun b => dwordswap b buf.length) =
        (dwordswap buf buf.length).bind (fun b => wordswap b buf.length) := by
  have u2 : up2 buf.length = buf.length := by unfold up2; omega
  have u4 : up4 buf.length = buf.length := by unfold up4; omega
  obtain ⟨c, c1, c2, _, _⟩ := wordswap_dwordswap_comm buf buf.length h4 (le_refl _)
  obtain ⟨w, ew, _, _⟩ := wordswap_spec buf buf.length (by omega)
  obtain ⟨d, ed, _, _⟩ := dwordswap_spec buf buf.length (by omega)
  have hs := convert_swaps_stages A B buf buf.length
  have key : ∃ r, convert_swaps A B buf buf.length = some r ∧
      composedTransform A B buf buf.length = some r := by
    rcases hA with rfl | rfl | rfl <;> rcases hB with rfl | rfl | rfl
    · exact ⟨buf, convert_swaps_same _ buf _ h4 (le_refl _), by simp [composedTransform]⟩
    · exact ⟨w, by simp [convert_swaps_eq, layoutSwap, Z64, N64, V64, ew],
        by simp [composedTransform, Z64, N64, V64, ew]⟩
    · exact ⟨d, by simp [convert_swaps_eq, layoutSwap, Z64, N64, V64, ed],
        by simp [composedTransform, Z64, N64, V64, ed]⟩
    · exact ⟨w, by simp [convert_swaps_eq, layoutSwap, Z64, N64, V64, ew],
        by simp [composedTransform, Z64, N64, V64, ew]⟩
    · exact ⟨buf, convert_swaps_same _ buf _ h4 (le_refl _), by simp [composedTransform]⟩
    · refine ⟨c, ?_, ?_⟩
      · rw [← c1]
        simp [convert_swaps_eq, layoutSwap, N64, V64]
      · rw [← c1]
        simp [composedTransform, Z64, N64, V64]
    · exact ⟨d, by simp [convert_swaps_eq, layoutSwap, Z64, N64, V64, ed],
        by simp [composedTransform, Z64, N64, V64, ed]⟩
    · refine ⟨c, ?_, ?_⟩
      · rw [← c2]
        simp [convert_swaps_eq, layoutSwap, N64, V64]
      · rw [← c1]
        simp [composedTransform, Z64, N64, V64]
    · exact ⟨buf, convert_swaps_same _ buf _ h4 (le_refl _), by simp [composedTransform]⟩
  obtain ⟨r, e1, e2⟩ := key
  exact ⟨r, e1, by rw [← hs, e1], e2, by rw [c1, c2]⟩

theorem convert_swaps_refines_composed_witness :
    exampleN64.length % 4 = 0 ∧
    ∃ r, convert_swaps N64 V64 exampleN64 exampleN64.length = some r ∧
      (convert_to_big_endian N64 exampleN64 exampleN64.length).bind
        (fun d => convert_to_final_format V64 d exampleN64.length) = some r ∧
      composedTransform N64 V64 exampleN64 exampleN64.length = some r ∧
      (wordswap exampleN64 exampleN64.length).bind
          (fun b => dwordswap b exampleN64.length) =
        (dwordswap exampleN64 exampleN64.length).bind
          (fun b => wordswap b exampleN64.length) :=
  ⟨by decide, convert_swaps_refines_composed N64 V64 exampleN64 (Or.inr (Or.inr rfl))
    (Or.inr (Or.inl rfl)) (by decide)⟩

/-- C14, at failing inputs. With `len = 5` the second iteration of `dwordswap`
(`i = 4 < 5`) calls `swap(buf, 4, 7)`.  On a buffer of exactly 5 bytes index 7
is outside the buffer and the call has no defined result.  On a block of 8
bytes of which the buffer is the first 5, the trailing byte at index 4 is
replaced by the byte at index 7, and the bytes at indices 5, 6, 7, outside the
buffer, are rewritten.  `convert` towards `N64` on the 65-byte image
`exampleOdd` has no defined result for the same reason. -/
theorem dwordswap_trailing_group_touched :
    dwordswap [1, 2, 3, 4, 5] 5 = none ∧
    (dwordswapRun 5 5 0 [1, 2, 3, 4, 5]).2.1 = [0, 3, 0, 3, 1, 2, 1, 2, 4, 7, 4, 7] ∧
    dwordswap [1, 2, 3, 4, 5, 6, 7, 8] 5 = some [4, 3, 2, 1, 8, 7, 6, 5] ∧
    (dwordswapRun 5 5 0 [1, 2, 3, 4, 5, 6, 7, 8]).2.1 =
      [0, 3, 0, 3, 1, 2, 1, 2, 4, 7, 4, 7, 5, 6, 5, 6] ∧
    convert ⟨some exampleOdd, true, true, true⟩ 3 N64 = none := by
  decide

/-- C15, at failing inputs. With `len = 3` the second iteration of `wordswap`
(`i = 2 < 3`) calls `swap(buf, 2, 3)`.  On a buffer of exactly 3 bytes index 3
is outside the buffer and the call has no defined result.  On a block of 4
bytes of which the buffer is the first 3, the trailing byte at index 2 is
replaced by the byte at index 3, and the byte at index 3, outside the buffer,
is rewritten.  `load_rom` never does this (its length is 64), `convert` does on
an image of odd size. -/
theorem wordswap_trailing_byte_touched :
    wordswap [1, 2, 3] 3 = none ∧
    (wordswapRun 3 3 0 [1, 2, 3]).2.1 = [0, 1, 0, 1, 2, 3, 2, 3] ∧
    wordswap [1, 2, 3, 4] 3 = some [2, 1, 4, 3] ∧
    (wordswapRun 3 3 0 [1, 2, 3, 4]).2.1 = [0, 1, 0, 1, 2, 3, 2, 3] ∧
    (convert ⟨some exampleOdd, true, true, true⟩ 3 V64).isNone = true := by
  decide

/-- C16. On every buffer whose length is a multiple of 4, `wordswap` and
`dwordswap` commute, and their composition exchanges the two halves of every
group of four bytes; the three magic patterns are images of one another under
`wordswap`, `dwordswap` and their composition. -/
theorem wordswap_dwordswap_commute :
    (∀ buf : List Byte, buf.length % 4 = 0 →
      ∃ r, (wordswap buf buf.length).bind (fun b => dwordswap b buf.length) = some r ∧
        (dwordswap buf buf.length).bind (fun b => wordswap b buf.length) = some r ∧
        r.length = buf.length ∧
        ∀ i, i % 4 = 0 → i < buf.length →
          r[i]? = buf[i + 2]? ∧ r[i + 1]? = buf[i + 3]? ∧
          r[i + 2]? = buf[i]? ∧ r[i + 3]? = buf[i + 1]?) ∧
    (wordswap (magic Z64) 4 = some (magic V64) ∧
      wordswap (magic V64) 4 = some (magic Z64) ∧
      dwordswap (magic Z64) 4 = some (magic N64) ∧
      dwordswap (magic N64) 4 = some (magic Z64) ∧
      (wordswap (magic V64) 4).bind (fun b => dwordswap b 4) = some (magic N64) ∧
      (dwordswap (magic V64) 4).bind (fun b => wordswap b 4) = some (magic N64) ∧
      (wordswap (magic N64) 4).bind (fun b => dwordswap b 4) = some (magic V64) ∧
      (dwordswap (magic N64) 4).bind (fun b => wordswap b 4) = some (magic V64)) := by
  refine ⟨fun buf h4 => ?_, by decide⟩
  obtain ⟨r, e1, e2, l, p⟩ := wordswap_dwordswap_comm buf buf.length h4 (le_refl _)
  refine ⟨r, e1, e2, l, fun i hi hlt => ?_⟩
  have h1 : i + 1 < buf.length := by omega
  have h2 : i + 2 < buf.length := by omega
  have h3 : i + 3 < buf.length := by omega
  have e0 : i - i % 4 + (i % 4 + 2) % 4 = i + 2 := by omega
  have e1 : i + 1 - (i + 1) % 4 + ((i + 1) % 4 + 2) % 4 = i + 3 := by omega
  have e2 : i + 2 - (i + 2) % 4 + ((i + 2) % 4 + 2) % 4 = i := by omega
  have e3 : i + 3 - (i + 3) % 4 + ((i + 3) % 4 + 2) % 4 = i + 1 := by omega
  rw [p i, p (i + 1), p (i + 2), p (i + 3), if_pos hlt, if_pos h1, if_pos h2, if_pos h3,
    e0, e1, e2, e3]
  exact ⟨rfl, rfl, rfl, rfl⟩

theorem wordswap_dwordswap_commute_witness :
    List.length [(0xA : Byte), 0xB, 0xC, 0xD] % 4 = 0 ∧
    ∃ r, (wordswap [0xA, 0xB, 0xC, 0xD] (List.length [(0xA : Byte), 0xB, 0xC, 0xD])).bind
          (fun b => dwordswap b (List.length [(0xA : Byte), 0xB, 0xC, 0xD])) = some r ∧
        (dwordswap [0xA, 0xB, 0xC, 0xD] (List.length [(0xA : Byte), 0xB, 0xC, 0xD])).bind
          (fun b => wordswap b (List.length [(0xA : Byte), 0xB, 0xC, 0xD])) = some r ∧
        r.length = List.length [(0xA : Byte), 0xB, 0xC, 0xD] ∧
        ∀ i, i % 4 = 0 → i < List.length [(0xA : Byte), 0xB, 0xC, 0xD] →
          r[i]? = [(0xA : Byte), 0xB, 0xC, 0xD][i + 2]? ∧
          r[i + 1]? = [(0xA : Byte), 0xB, 0xC, 0xD][i + 3]? ∧
          r[i + 2]? = [(0xA : Byte), 0xB, 0xC, 0xD][i]? ∧
          r[i + 3]? = [(0xA : Byte), 0xB, 0xC, 0xD][i + 1]? :=
  ⟨by decide, wordswap_dwordswap_commute.1 [0xA, 0xB, 0xC, 0xD] (by decide)⟩

/-- C17. For every file that holds a complete 64-byte header, `load_rom`
returns 0 and records as `rom.fmt` the format of the header bytes as they are in
the file; when that format is one of the three known layouts the header in
memory begins with the `Z64` magic `80 37 12 40` after the normalisation, and
when it is not the header in memory is the 64 bytes of the file unchanged. -/
theorem load_rom_normalizes_header (f : List Byte) (hl : 64 ≤ f.length) :
    ∃ rom, load_rom (some f) = some (0, some rom) ∧ rom.f = f ∧
      rom.fmt = format (f.take 64) ∧ rom.h.length = 64 ∧
      ((rom.fmt = Z64 ∨ rom.fmt = V64 ∨ rom.fmt = N64) →
        format rom.h = Z64 ∧ rom.h.take 4 = [0x80, 0x37, 0x12, 0x40]) ∧
      (¬ (rom.fmt = Z64 ∨ rom.fmt = V64 ∨ rom.fmt = N64) → rom.h = f.take 64) := by
  have hh : header f = some (f.take 64) := by simp [header, sizeof_rom_header_t, hl]
  have hlen : (f.take 64).length = 64 := by simp [hl]
  have key : ∃ h2, layoutSwap (format (f.take 64)) (f.take 64) 64 = some h2 ∧
      load_rom (some f) = some (0, some { f := f, h := h2, fmt := format (f.take 64) }) ∧
      h2.length = 64 := by
    obtain ⟨r, e, l, _⟩ := layoutSwap_spec (format (f.take 64)) (f.take 64) 64 (by decide)
      (by omega)
    refine ⟨r, e, ?_, by omega⟩
    simp only [load_rom, hh, sizeof_rom_header_t]
    unfold layoutSwap at e
    by_cases h1 : format (f.take 64) = N64
    · have h2 : ¬ format (f.take 64) = V64 := fun e => N64_ne_V64 (h1.symm.trans e)
      rw [if_pos h1] at e
      simp [h1, e, N64_ne_V64]
    · by_cases h2 : format (f.take 64) = V64
      · rw [if_neg h1, if_pos h2] at e
        simp [h2, e, N64_ne_V64.symm]
      · rw [if_neg h1, if_neg h2] at e
        cases e
        simp [h1, h2]
  obtain ⟨h2, e, el, l2⟩ := key
  refine ⟨_, el, rfl, rfl, l2, fun hk => ?_, fun hk => ?_⟩
  · obtain ⟨r, er, _, t⟩ := layoutSwap_to_Z64 (f.take 64) 64 (by decide) (by decide)
      (by omega) hk
    rw [e] at er
    cases er
    exact ⟨(format_eq_Z64_iff _).2 t, t⟩
  · have h1 : ¬ format (f.take 64) = N64 := fun c => hk (Or.inr (Or.inr c))
    have h3 : ¬ format (f.take 64) = V64 := fun c => hk (Or.inr (Or.inl c))
    simp only [layoutSwap, h1, h3, if_false] at e
    cases e
    rfl

theorem load_rom_normalizes_header_witness :
    64 ≤ exampleN64.length ∧
    ∃ rom, load_rom (some exampleN64) = some (0, some rom) ∧ rom.f = exampleN64 ∧
      rom.fmt = format (exampleN64.take 64) ∧ rom.h.length = 64 ∧
      ((rom.fmt = Z64 ∨ rom.fmt = V64 ∨ rom.fmt = N64) →
        format rom.h = Z64 ∧ rom.h.take 4 = [0x80, 0x37, 0x12, 0x40]) ∧
      (¬ (rom.fmt = Z64 ∨ rom.fmt = V64 ∨ rom.fmt = N64) → rom.h = exampleN64.take 64) :=
  ⟨by decide, load_rom_normalizes_header exampleN64 (by decide)⟩

/-- C18. For every buffer whose length `len` is a multiple of 4, every index
that `wordswap(buf, len)` and `dwordswap(buf, len)` read or write is below `len`,
both calls return a buffer, and their loops run `len / 2` and `len / 4`
iterations. -/
theorem swaps_stay_in_bounds (buf : List Byte) (h4 : buf.length % 4 = 0) :
    (∃ r, wordswap buf buf.length = some r ∧
      (wordswapRun buf.length buf.length 0 buf).1 = some r) ∧
    (∀ k ∈ (wordswapRun buf.length buf.length 0 buf).2.1, k < buf.length) ∧
    (wordswapRun buf.length buf.length 0 buf).2.2 = buf.length / 2 ∧
    (∃ r, dwordswap buf buf.length = some r ∧
      (dwordswapRun buf.length buf.length 0 buf).1 = some r) ∧
    (∀ k ∈ (dwordswapRun buf.length buf.length 0 buf).2.1, k < buf.length) ∧
    (dwordswapRun buf.length buf.length 0 buf).2.2 = buf.length / 4 := by
  have u2 : up2 buf.length = buf.length := by unfold up2; omega
  have u4 : up4 buf.length = buf.length := by unfold up4; omega
  obtain ⟨w, ew, _, _⟩ := wordswap_spec buf buf.length (by omega)
  obtain ⟨d, ed, _, _⟩ := dwordswap_spec buf buf.length (by omega)
  obtain ⟨tw, cw⟩ := wordswapRun_trace buf.length buf.length 0 buf (by omega) (by omega)
    (le_refl _) (by omega)
  obtain ⟨td, cd⟩ := dwordswapRun_trace buf.length buf.length 0 buf (by omega) h4
    (le_refl _) (by omega)
  refine ⟨⟨w, ew, ?_⟩, fun k hk => (tw k hk).2, by simpa using cw, ⟨d, ed, ?_⟩,
    fun k hk => (td k hk).2, by simpa using cd⟩
  · rw [wordswapRun_fst]
    exact ew
  · rw [dwordswapRun_fst]
    exact ed

theorem swaps_stay_in_bounds_witness :
    exampleZ64.length % 4 = 0 ∧
    (∃ r, wordswap exampleZ64 exampleZ64.length = some r ∧
      (wordswapRun exampleZ64.length exampleZ64.length 0 exampleZ64).1 = some r) ∧
    (∀ k ∈ (wordswapRun exampleZ64.length exampleZ64.length 0 exampleZ64).2.1,
      k < exampleZ64.length) ∧
    (wordswapRun exampleZ64.length exampleZ64.length 0 exampleZ64).2.2
      = exampleZ64.length / 2 ∧
    (∃ r, dwordswap exampleZ64 exampleZ64.length = some r ∧
      (dwordswapRun exampleZ64.length exampleZ64.length 0 exampleZ64).1 = some r) ∧
    (∀ k ∈ (dwordswapRun exampleZ64.length exampleZ64.length 0 exampleZ64).2.1,
      k < exampleZ64.length) ∧
    (dwordswapRun exampleZ64.length exampleZ64.length 0 exampleZ64).2.2
      = exampleZ64.length / 4 :=
  ⟨by decide, swaps_stay_in_bounds exampleZ64 (by decide)⟩

/-- C19. `clockrate` returns 0 for every header, whatever its `clock_rate` field
holds and whatever the byte order of the host: each of the four terms is 0.  It
is not the byte-reversed clock rate: for the field value `0xAABBCCDD` that
would be `0xDDCCBBAA`. -/
theorem clockrate_returns_zero (host_big_endian : Bool) (h : rom_header_t) :
    clockrate host_big_endian h = 0 ∧
    (∀ x : Nat, clockrate_of x = 0 ∧
      (x &&& 0xFF) >>> 24 = 0 ∧ (((x <<< 8) % 2 ^ 32) &&& 0xFF) >>> 16 = 0 ∧
      (((x <<< 16) % 2 ^ 32) &&& 0xFF) >>> 8 = 0 ∧ ((x <<< 24) % 2 ^ 32) &&& 0xFF = 0) ∧
    (clock_rate true exampleZ64 = 0xAABBCCDD ∧
      byteReverse32 (clock_rate true exampleZ64) = 0xDDCCBBAA ∧
      clockrate true exampleZ64 ≠ byteReverse32 (clock_rate true exampleZ64)) :=
  ⟨clockrate_of_eq_zero _, fun x => ⟨clockrate_of_eq_zero x, clockrate_of_terms x⟩, by decide⟩

/-! ## The calls made by `load_rom` and `convert` -/

/-- The result that `load_romRun` returns is the one of `load_rom`. -/
theorem load_romRun_fst (path : Option (List Byte)) :
    (load_romRun path).1 = load_rom path := by
  unfold load_romRun load_rom
  cases path with
  | none => rfl
  | some f =>
    dsimp only
    cases header f with
    | none => rfl
    | some h =>
      dsimp only
      cases (if format h = N64 then dwordswap h sizeof_rom_header_t else some h) with
      | none => rfl
      | some h1 =>
        dsimp only
        cases (if format h = V64 then wordswap h1 sizeof_rom_header_t else some h1) with
        | none => rfl
        | some h2 => rfl

/-- The buffer that `convert_swapsRun` returns is the one of `convert_swaps`. -/
theorem convert_swapsRun_fst (fmt dst_format : Nat) (data : List Byte) (romsize : Nat) :
    (convert_swapsRun fmt dst_format data romsize).1 =
      convert_swaps fmt dst_format data romsize := by
  unfold convert_swapsRun convert_swaps
  dsimp only
  cases (if fmt = N64 then dwordswap data romsize else some data) with
  | none => rfl
  | some d1 =>
    dsimp only
    cases (if fmt = V64 then wordswap d1 romsize else some d1) with
    | none => rfl
    | some d2 =>
      dsimp only
      cases (if dst_format = V64 then wordswap d2 romsize else some d2) with
      | none => rfl
      | some d3 => rfl

/-- The outcome that `convertRun` returns is the one of `convert`. -/
theorem convertRun_fst (sys : Sys) (argc dst_format : Nat) :
    (convertRun sys argc dst_format).1 = convert sys argc dst_format := by
  unfold convertRun convert
  by_cases ha : argc < 3
  · simp only [ha, if_true]
  · simp only [ha, if_false]
    rcases hr : load_romRun sys.file with ⟨res, calls⟩
    have hl : res = load_rom sys.file := by
      have h := load_romRun_fst sys.file
      rw [hr] at h
      exact h
    rw [← hl]
    cases res with
    | none => rfl
    | some p =>
      obtain ⟨ret, loaded⟩ := p
      dsimp only
      by_cases h0 : ret = 0
      · simp only [h0, ne_eq, not_true_eq_false, if_false]
        cases loaded with
        | none => rfl
        | some rom =>
          dsimp only
          by_cases hfm : rom.fmt = dst_format
          · simp only [hfm, if_true]
          · simp only [hfm, if_false]
            by_cases hm : sys.malloc_ok = true
            · by_cases hrd : sys.fread_ok = true
              · rcases hc : convert_swapsRun rom.fmt dst_format rom.f rom.f.length with
                  ⟨d, calls1⟩
                have hs : d = convert_swaps rom.fmt dst_format rom.f rom.f.length := by
                  have h := convert_swapsRun_fst rom.fmt dst_format rom.f rom.f.length
                  rw [hc] at h
                  exact h
                rw [← hs]
                simp only [hm, hrd, Bool.not_true, Bool.false_eq_true, if_false]
                cases d <;> rfl
              · simp [hm, hrd]
            · simp [hm]
      · simp only [ne_eq, h0, not_false_eq_true, if_true]

/-- On a file that holds a complete header `load_rom` calls `dwordswap` on the
header when the format is `N64`, `wordswap` on the header when it is `V64`, and
no primitive otherwise. -/
theorem load_romRun_some (f : List Byte) (hl : 64 ≤ f.length) :
    ∃ h, load_romRun (some f) =
      (some (0, some { f := f, h := h, fmt := format f }),
        (if format f = N64 then [Call.dwordswap Target.header 64] else []) ++
          if format f = V64 then [Call.wordswap Target.header 64] else []) := by
  have hh : header f = some (f.take 64) := by simp [header, sizeof_rom_header_t, hl]
  have hlen : (f.take 64).length = 64 := by simp [hl]
  have hfmt : format (f.take 64) = format f := format_take f 64 (by omega)
  have u4 : up4 64 = 64 := by decide
  have u2 : up2 64 = 64 := by decide
  simp only [load_romRun, hh, hfmt, sizeof_rom_header_t]
  by_cases h1 : format f = N64
  · obtain ⟨r, e, l, _⟩ := dwordswap_spec (f.take 64) 64 (by omega)
    have h2 : ¬ format f = V64 := fun e => N64_ne_V64 (h1.symm.trans e)
    exact ⟨r, by simp [h1, e, N64_ne_V64]⟩
  · by_cases h2 : format f = V64
    · obtain ⟨r, e, l, _⟩ := wordswap_spec (f.take 64) 64 (by omega)
      exact ⟨r, by simp [h2, e, N64_ne_V64.symm]⟩
    · exact ⟨f.take 64, by simp [h1, h2]⟩

/-- C8, as stated, fails: on the `V64` image `exampleV64` converted to `V64`, and
on the `N64` image `exampleN64` converted to `N64`, `convert` does report that
there is nothing to do, but a swap primitive has run before the test of
`rom.fmt == dst_format`: `load_rom` has called `wordswap`, respectively
`dwordswap`, on the header it keeps in memory, which no longer holds the bytes
of the file. -/
theorem convert_same_format_swaps_header :
    format exampleV64 = V64 ∧
    convertRun ⟨some exampleV64, true, true, true⟩ 3 V64 =
      (some ⟨EXIT_SUCCESS, ["Input is already Byte Swapped. Nothing to do!\n"], none⟩,
        [Call.wordswap Target.header 64]) ∧
    load_rom (some exampleV64) =
      some (0, some { f := exampleV64, h := exampleZ64, fmt := V64 }) ∧
    exampleZ64 ≠ exampleV64.take 64 ∧
    format exampleN64 = N64 ∧
    convertRun ⟨some exampleN64, true, true, true⟩ 3 N64 =
      (some ⟨EXIT_SUCCESS, ["Input is already Little Endian. Nothing to do!\n"], none⟩,
        [Call.dwordswap Target.header 64]) ∧
    load_rom (some exampleN64) =
      some (0, some { f := exampleN64, h := exampleZ64, fmt := N64 }) ∧
    exampleZ64 ≠ exampleN64.take 64 := by
  decide

/-- C8, amended. For every known layout `A` and every image with a complete
header whose format is `A`, conversion with target `A` leaves the image alone:
the equality of source and target is detected before the image is read, no swap
primitive is called on the image, nothing is written, and `convert` returns
`EXIT_SUCCESS` after printing that there is nothing to do, whatever `malloc`,
`fread` and the second `fopen` would answer.  The only swap that runs is the one
of `load_rom` on the header it keeps in memory, before the test: `wordswap` for
`V64`, `dwordswap` for `N64`, none for `Z64`. -/
theorem convert_same_format_leaves_image (sys : Sys) (f : List Byte)
    (argc dst_format : Nat) (hargc : 3 ≤ argc) (hf : sys.file = some f)
    (hl : 64 ≤ f.length) (hk : dst_format = Z64 ∨ dst_format = V64 ∨ dst_format = N64)
    (hfmt : format f = dst_format) :
    convertRun sys argc dst_format =
      (some ⟨EXIT_SUCCESS,
          ["Input is already " ++ (format_str dst_format).2 ++ ". Nothing to do!\n"], none⟩,
        (if dst_format = N64 then [Call.dwordswap Target.header 64] else []) ++
          if dst_format = V64 then [Call.wordswap Target.header 64] else []) ∧
    convert sys argc dst_format =
      some ⟨EXIT_SUCCESS,
        ["Input is already " ++ (format_str dst_format).2 ++ ". Nothing to do!\n"], none⟩ := by
  obtain ⟨h, e⟩ := load_romRun_some f hl
  have ha : ¬ argc < 3 := by omega
  have ho : (format_str dst_format).1 = [] := by
    rcases hk with rfl | rfl | rfl <;> decide
  have key : convertRun sys argc dst_format =
      (some ⟨EXIT_SUCCESS,
          ["Input is already " ++ (format_str dst_format).2 ++ ". Nothing to do!\n"], none⟩,
        (if dst_format = N64 then [Call.dwordswap Target.header 64] else []) ++
          if dst_format = V64 then [Call.wordswap Target.header 64] else []) := by
    simp only [convertRun, ha, if_false, hf, e, hfmt, if_true, ho, List.nil_append, ne_eq,
      not_true_eq_false]
  refine ⟨key, ?_⟩
  rw [← convertRun_fst, key]

theorem convert_same_format_leaves_image_witness :
    (3 ≤ 3 ∧ 64 ≤ exampleV64.length ∧ format exampleV64 = V64) ∧
    (convertRun ⟨some exampleV64, false, false, false⟩ 3 V64 =
      (some ⟨EXIT_SUCCESS,
          ["Input is already " ++ (format_str V64).2 ++ ". Nothing to do!\n"], none⟩,
        (if V64 = N64 then [Call.dwordswap Target.header 64] else []) ++
          if V64 = V64 then [Call.wordswap Target.header 64] else []) ∧
    convert ⟨some exampleV64, false, false, false⟩ 3 V64 =
      some ⟨EXIT_SUCCESS,
        ["Input is already " ++ (format_str V64).2 ++ ". Nothing to do!\n"], none⟩) :=
  ⟨by decide, convert_same_format_leaves_image ⟨some exampleV64, false, false, false⟩
    exampleV64 3 V64 (by decide) rfl (by decide) (Or.inr (Or.inl rfl)) (by decide)⟩

end Tool64
